import Mathlib

/-!
Verification of the `dictionary_rs` open-addressing hash table
(`src/dictionary.rs`).

The Rust code is shallowly embedded: the generic key type `K` (with its
`PartialEq`) becomes a type with `DecidableEq`, the `DefaultHasher`-based
`get_hash` becomes an abstract parameter `hash : K → Nat`, `usize`
arithmetic is modelled on `ℕ` (all capacities and hashes relevant to the
claims stay far below `2^64`, so wrap-around never fires), and the
unbounded probing loops of `lookup` and `force_insert` become
fuel-indexed functions (`none` = the loop has not finished within the
given fuel); the observable semantics of an operation is the relation
"some amount of fuel makes it return".  Fallible constructors
(`panic!`) return `Option`.
-/

set_option maxRecDepth 4000
set_option linter.unusedSectionVars false
set_option linter.deprecated false

namespace DictRS

/-- `Bucket` mirrors the Rust `enum Bucket<K, V>`: an occupied entry
`(key, value, cached hash, slot index)`, an empty slot, or a tombstone. -/
inductive Bucket (K V : Type) where
  | entry (k : K) (v : V) (h : Nat) (i : Nat)
  | empty
  | tombstone
  deriving DecidableEq

/-- `Dict` mirrors the Rust `struct Dictionary<K, V>`. -/
structure Dict (K V : Type) where
  capacity : Nat
  size : Nat
  table : List (Bucket K V)
  deriving DecidableEq

variable {K V : Type} [DecidableEq K]

/-- The probe state `(index, perturb)` after `n` loop iterations, exactly as
both `lookup` and `force_insert` compute it: the initial state is
`(key_hash % capacity, key_hash)`, and each iteration first shifts
`perturb` right by 5 bits and then sets
`index = (5*index + 1 + perturb) % capacity`. -/
def probeSt (cap h : Nat) : Nat → Nat × Nat
  | 0 => (h % cap, h)
  | n + 1 =>
    ((5 * (probeSt cap h n).1 + 1 + (probeSt cap h n).2 / 32) % cap,
      (probeSt cap h n).2 / 32)

/-- Fuel-indexed embedding of the loop of `Dictionary::lookup`.  The outer
`Option` is `none` when the fuel runs out (or an index escapes the table,
which in Rust would be an `unwrap` panic); the inner `Option` is the
return value of the function itself. -/
def lookupAux (table : List (Bucket K V)) (cap : Nat) (key : K) :
    Nat → Nat → Nat → Option (Option (K × V × Nat))
  | 0, _, _ => none
  | fuel + 1, index, perturb =>
    match table.get? index with
    | some (Bucket.entry k v _ _) =>
        if k = key then some (some (k, v, index))
        else lookupAux table cap key fuel
          ((5 * index + 1 + perturb / 32) % cap) (perturb / 32)
    | some Bucket.tombstone =>
        lookupAux table cap key fuel
          ((5 * index + 1 + perturb / 32) % cap) (perturb / 32)
    | some Bucket.empty => some none
    | none => none

/-- `Dictionary::lookup`, from the top: hash the key, start the probe at
`(hash % capacity, hash)`. -/
def lookupD (hash : K → Nat) (d : Dict K V) (key : K) (fuel : Nat) :
    Option (Option (K × V × Nat)) :=
  lookupAux d.table d.capacity key fuel (hash key % d.capacity) (hash key)

/-- Fuel-indexed embedding of the loop of `Dictionary::force_insert`.
Overwrites in place on a key match (keeping the stored key and cached
hash), and claims the first non-entry slot (empty or tombstone) otherwise. -/
def forceInsertAux (table : List (Bucket K V)) (cap : Nat) (key : K) (value : V)
    (keyHash : Nat) : Nat → Nat → Nat → Option (List (Bucket K V))
  | 0, _, _ => none
  | fuel + 1, index, perturb =>
    match table.get? index with
    | some (Bucket.entry k _ h _) =>
        if k = key then some (table.set index (Bucket.entry k value h index))
        else forceInsertAux table cap key value keyHash fuel
          ((5 * index + 1 + perturb / 32) % cap) (perturb / 32)
    | some _ => some (table.set index (Bucket.entry key value keyHash index))
    | none => none

/-- `force_insert` from the top, as called by the Rust code: the probe starts
at `(key_hash % capacity, key_hash)`. -/
def forceInsertD (table : List (Bucket K V)) (cap : Nat) (key : K) (value : V)
    (keyHash : Nat) (fuel : Nat) : Option (List (Bucket K V)) :=
  forceInsertAux table cap key value keyHash fuel (keyHash % cap) keyHash

/-- The reinsertion loop of `Dictionary::resize`: walk the old table and
`force_insert` every entry (with its cached hash) into the accumulator. -/
def reinsertAll (cap fuel : Nat) :
    List (Bucket K V) → List (Bucket K V) → Option (List (Bucket K V))
  | [], acc => some acc
  | Bucket.entry k v h _ :: rest, acc =>
    match forceInsertD acc cap k v h fuel with
    | some acc2 => reinsertAll cap fuel rest acc2
    | none => none
  | Bucket.empty :: rest, acc => reinsertAll cap fuel rest acc
  | Bucket.tombstone :: rest, acc => reinsertAll cap fuel rest acc

/-- `Dictionary::resize`: set the capacity, replace the table by a fresh
all-empty one of the new capacity, and reinsert every occupied entry. -/
def resizeF (d : Dict K V) (newCap fuel : Nat) : Option (Dict K V) :=
  match reinsertAll newCap fuel d.table (List.replicate newCap Bucket.empty) with
  | some t => some ⟨newCap, d.size, t⟩
  | none => none

/-- `Dictionary::insert`: increment `size`, resize to `2*capacity` when
`2*(capacity/3) < size`, then hash the key and `force_insert`. -/
def insertF (hash : K → Nat) (d : Dict K V) (key : K) (value : V) (fuel : Nat) :
    Option (Dict K V) :=
  match (if 2 * (d.capacity / 3) < d.size + 1
      then resizeF ⟨d.capacity, d.size + 1, d.table⟩ (2 * d.capacity) fuel
      else some ⟨d.capacity, d.size + 1, d.table⟩) with
  | some d2 =>
    match forceInsertD d2.table d2.capacity key value (hash key) fuel with
    | some t => some ⟨d2.capacity, d2.size, t⟩
    | none => none
  | none => none

/-- The tail of `Dictionary::remove`, shared by the hit and miss paths:
after the operation, resize to `capacity/2` when `size < capacity/3`. -/
def shrinkCheck (out : Option (K × V)) (d1 : Dict K V) (fuel : Nat) :
    Option (Option (K × V) × Dict K V) :=
  if d1.size < d1.capacity / 3 then
    match resizeF d1 (d1.capacity / 2) fuel with
    | some d2 => some (out, d2)
    | none => none
  else some (out, d1)

/-- `Dictionary::remove`: look the key up; on a hit replace the found slot by
a tombstone and decrement `size`; afterwards (hit or miss) run the shrink
check. -/
def removeF (hash : K → Nat) (d : Dict K V) (key : K) (fuel : Nat) :
    Option (Option (K × V) × Dict K V) :=
  match lookupD hash d key fuel with
  | none => none
  | some none => shrinkCheck none d fuel
  | some (some (k, v, idx)) =>
    shrinkCheck (some (k, v))
      ⟨d.capacity, d.size - 1, d.table.set idx Bucket.tombstone⟩ fuel

/-- `Dictionary::new()`: capacity 8, all-empty table. -/
def Dict.new : Dict K V := ⟨8, 0, List.replicate 8 Bucket.empty⟩

/-- `Dictionary::with_capacity(size)`: panics (here: `none`) on zero. -/
def withCapacity (n : Nat) : Option (Dict K V) :=
  if n = 0 then none else some ⟨n, 0, List.replicate n Bucket.empty⟩

/-- `Dictionary::get`: wrap `lookup` into a `Result<V, String>`. -/
def getD (hash : K → Nat) (d : Dict K V) (key : K) (fuel : Nat) :
    Option (Except String V) :=
  match lookupD hash d key fuel with
  | some (some (_, v, _)) => some (Except.ok v)
  | some none => some (Except.error "Key does not exist")
  | none => none

/-- `Dictionary::contains`: `lookup(key).is_some()`. -/
def containsD (hash : K → Nat) (d : Dict K V) (key : K) (fuel : Nat) :
    Option Bool :=
  match lookupD hash d key fuel with
  | some res => some res.isSome
  | none => none

/-- The insertion fold of `Dictionary::from_tuples`. -/
def insertList (hash : K → Nat) (fuel : Nat) :
    List (K × V) → Dict K V → Option (Dict K V)
  | [], d => some d
  | (k, v) :: rest, d =>
    match insertF hash d k v fuel with
    | some d2 => insertList hash fuel rest d2
    | none => none

/-- `Dictionary::from_tuples`: panics (here: `none`) on the empty list,
otherwise starts from `with_capacity(len*2/3 + 1)` and inserts in order. -/
def fromTuplesF (hash : K → Nat) (l : List (K × V)) (fuel : Nat) :
    Option (Dict K V) :=
  if l.isEmpty then none
  else
    match (withCapacity (l.length * 2 / 3 + 1) : Option (Dict K V)) with
    | some d => insertList hash fuel l d
    | none => none

/-! ### Observable-behaviour relations

A fueled run that returns `some` is the behaviour of the Rust loop; the
relations below quantify the fuel away. -/

/-- `lookup` terminates with result `r`. -/
def LookupR (hash : K → Nat) (d : Dict K V) (key : K)
    (r : Option (K × V × Nat)) : Prop :=
  ∃ fuel, lookupD hash d key fuel = some r

/-- `insert` terminates, producing `d2`. -/
def InsertR (hash : K → Nat) (d : Dict K V) (key : K) (value : V)
    (d2 : Dict K V) : Prop :=
  ∃ fuel, insertF hash d key value fuel = some d2

/-- `remove` terminates, returning `out` and producing `d2`. -/
def RemoveR (hash : K → Nat) (d : Dict K V) (key : K) (out : Option (K × V))
    (d2 : Dict K V) : Prop :=
  ∃ fuel, removeF hash d key fuel = some (out, d2)

/-- A terminating sequence of inserts and removes none of which uses the
key `k` (reflexive-transitive closure). -/
inductive OtherOps (hash : K → Nat) (k : K) : Dict K V → Dict K V → Prop where
  | refl (d : Dict K V) : OtherOps hash k d d
  | insert {d d1 d2 : Dict K V} {k2 : K} {v2 : V} (hne : k2 ≠ k)
      (h1 : InsertR hash d k2 v2 d1) (h2 : OtherOps hash k d1 d2) :
      OtherOps hash k d d2
  | remove {d d1 d2 : Dict K V} {k2 : K} {out : Option (K × V)} (hne : k2 ≠ k)
      (h1 : RemoveR hash d k2 out d1) (h2 : OtherOps hash k d1 d2) :
      OtherOps hash k d d2

/-- Dictionaries reachable through the public constructors and the public
mutating operations. -/
inductive Reachable (hash : K → Nat) : Dict K V → Prop where
  | new : Reachable hash Dict.new
  | withCap {n : Nat} {d : Dict K V} (h : withCapacity n = some d) :
      Reachable hash d
  | insert {d d2 : Dict K V} {k : K} {v : V} (hd : Reachable hash d)
      (h : InsertR hash d k v d2) : Reachable hash d2
  | remove {d d2 : Dict K V} {k : K} {out : Option (K × V)}
      (hd : Reachable hash d) (h : RemoveR hash d k out d2) :
      Reachable hash d2

/-- Dictionaries reachable using insertions only (no removals). -/
inductive InsReach (hash : K → Nat) : Dict K V → Prop where
  | new : InsReach hash Dict.new
  | withCap {n : Nat} {d : Dict K V} (h : withCapacity n = some d) :
      InsReach hash d
  | insert {d d2 : Dict K V} {k : K} {v : V} (hd : InsReach hash d)
      (h : InsertR hash d k v d2) : InsReach hash d2

/-! ### Structural predicates on tables -/

/-- The slot at `x` lets a probe for `key` advance: an entry with a
different key, or a tombstone. -/
def isAdvance (key : K) (table : List (Bucket K V)) (x : Nat) : Prop :=
  (∃ k v h i, table.get? x = some (Bucket.entry k v h i) ∧ k ≠ key) ∨
    table.get? x = some Bucket.tombstone

/-- Number of occupied slots holding `key`. -/
def countKey (key : K) (table : List (Bucket K V)) : Nat :=
  table.countP fun b =>
    match b with
    | Bucket.entry k _ _ _ => decide (k = key)
    | _ => false

/-- Number of occupied slots. -/
def countEntries (table : List (Bucket K V)) : Nat :=
  table.countP fun b =>
    match b with
    | Bucket.entry _ _ _ _ => true
    | _ => false

/-- Every occupied slot caches the true hash of its key. -/
def HashesOK (hash : K → Nat) (table : List (Bucket K V)) : Prop :=
  ∀ x k v h i, table.get? x = some (Bucket.entry k v h i) → h = hash k

/-- No tombstones anywhere in the table. -/
def NoTombs (table : List (Bucket K V)) : Prop :=
  ∀ x, table.get? x ≠ some Bucket.tombstone

/-- `key` occupies no slot of the table. -/
def KeyAbsent (key : K) (table : List (Bucket K V)) : Prop :=
  ∀ x k v h i, table.get? x = some (Bucket.entry k v h i) → k ≠ key

/-- Boolean (hence decidable) check that every occupied slot caches the
true hash of its key. -/
def hashesOKB (hash : K → Nat) (table : List (Bucket K V)) : Bool :=
  table.all fun b =>
    match b with
    | Bucket.entry k _ h _ => decide (h = hash k)
    | _ => true

/-- Modelled from the spec (§4.1 pseudocode), for comparison with the code
in claim C5 only: here each step uses the current `perturb` in the index
update and shifts it afterwards, i.e.
`index = (5*index + 1 + perturb) mod capacity` then `perturb = perturb >> 5`. -/
def specProbeSt (cap h : Nat) : Nat → Nat × Nat
  | 0 => (h % cap, h)
  | n + 1 =>
    ((5 * (specProbeSt cap h n).1 + 1 + (specProbeSt cap h n).2) % cap,
      (specProbeSt cap h n).2 / 32)

/-- Spec-level rendering of the `lookup` loop, driven by the probe-state
sequence `probeSt` instead of the index/perturb variables of the loop. -/
def scanLookup (table : List (Bucket K V)) (cap : Nat) (key : K) (h : Nat) :
    Nat → Nat → Option (Option (K × V × Nat))
  | 0, _ => none
  | fuel + 1, n =>
    match table.get? (probeSt cap h n).1 with
    | some (Bucket.entry k v _ _) =>
        if k = key then some (some (k, v, (probeSt cap h n).1))
        else scanLookup table cap key h fuel (n + 1)
    | some Bucket.tombstone => scanLookup table cap key h fuel (n + 1)
    | some Bucket.empty => some none
    | none => none

/-- Spec-level rendering of the `force_insert` loop, driven by `probeSt`. -/
def scanPlace (table : List (Bucket K V)) (cap : Nat) (key : K) (value : V)
    (keyHash : Nat) : Nat → Nat → Option (List (Bucket K V))
  | 0, _ => none
  | fuel + 1, n =>
    match table.get? (probeSt cap keyHash n).1 with
    | some (Bucket.entry k _ h _) =>
        if k = key then
          some (table.set (probeSt cap keyHash n).1
            (Bucket.entry k value h (probeSt cap keyHash n).1))
        else scanPlace table cap key value keyHash fuel (n + 1)
    | some _ =>
        some (table.set (probeSt cap keyHash n).1
          (Bucket.entry key value keyHash (probeSt cap keyHash n).1))
    | none => none

/-- The slot at `x` makes a probe for `key` advance in `force_insert`:
only an occupied entry with a different key (tombstones are claimed). -/
def isMismatch (key : K) (table : List (Bucket K V)) (x : Nat) : Prop :=
  ∃ k v h i, table.get? x = some (Bucket.entry k v h i) ∧ k ≠ key

/-- The `lookup` loop stops at slot `x` with result `r`: either a matching
entry or an empty slot. -/
def stopsAt (table : List (Bucket K V)) (key : K) (x : Nat)
    (r : Option (K × V × Nat)) : Prop :=
  (∃ k v h i, table.get? x = some (Bucket.entry k v h i) ∧ k = key ∧
      r = some (k, v, x)) ∨
    (table.get? x = some Bucket.empty ∧ r = none)

/-- The `force_insert` loop stops at slot `x`, turning `table` into `t2`:
either it overwrites a matching entry in place (keeping the stored key and
cached hash) or it claims an empty or tombstone slot. -/
def placeOutcome (table : List (Bucket K V)) (key : K) (value : V)
    (keyHash : Nat) (x : Nat) (t2 : List (Bucket K V)) : Prop :=
  (∃ k v h i, table.get? x = some (Bucket.entry k v h i) ∧ k = key ∧
      t2 = table.set x (Bucket.entry k value h x)) ∨
    ((table.get? x = some Bucket.empty ∨ table.get? x = some Bucket.tombstone) ∧
      t2 = table.set x (Bucket.entry key value keyHash x))

/-- At most one occupied slot of the table holds `key`. -/
def KeyUnique (key : K) (table : List (Bucket K V)) : Prop :=
  ∀ x y kx vx hx ix ky vy hy iy,
    table.get? x = some (Bucket.entry kx vx hx ix) → kx = key →
    table.get? y = some (Bucket.entry ky vy hy iy) → ky = key → x = y

/-- Everything a per-key argument needs of a dictionary: the table really
has `capacity` slots, cached hashes are truthful, `k` occupies at most one
slot, and a lookup of `k` terminates with value `v`. -/
def GoodKey (hash : K → Nat) (k : K) (v : V) (d : Dict K V) : Prop :=
  d.table.length = d.capacity ∧ HashesOK hash d.table ∧ KeyUnique k d.table ∧
    ∃ i, LookupR hash d k (some (k, v, i))

/-- Every key occupying a slot of the table is found by a terminating
lookup (stated at the scan level). -/
def FindableT (hash : K → Nat) (cap : Nat) (table : List (Bucket K V)) : Prop :=
  ∀ x k v h i, table.get? x = some (Bucket.entry k v h i) →
    ∃ v2 j f, scanLookup table cap k (hash k) f 0 = some (some (k, v2, j))

/-- The invariant maintained by insert-only runs: full-length table,
truthful cached hashes, no tombstones, every key unique, every present key
findable. -/
def InsOK (hash : K → Nat) (d : Dict K V) : Prop :=
  d.table.length = d.capacity ∧ HashesOK hash d.table ∧ NoTombs d.table ∧
    (∀ key, KeyUnique key d.table) ∧ FindableT hash d.capacity d.table

/-- Iterates of `y ↦ 5*y + 1` over `ℕ` without reduction: the degenerate
probe step once `perturb` has decayed to zero, before taking the modulus. -/
def lcgN : Nat → Nat → Nat
  | 0, x => x
  | n + 1, x => 5 * lcgN n x + 1

/-- `(5^n - 1) / 4`, via the recurrence `c (n+1) = 5 * c n + 1`. -/
def cN : Nat → Nat
  | 0 => 0
  | n + 1 => 5 * cN n + 1

/-- Iterates of `x ↦ (5*x + 1) % cap`: the tail of the probe sequence once
`perturb` is zero. -/
def lcgM (cap : Nat) : Nat → Nat → Nat
  | 0, x => x
  | n + 1, x => (5 * lcgM cap n x + 1) % cap

/-- Boolean test: does the `lookup` loop stop at slot `x` (a matching
entry or an empty slot)? -/
def stopB (table : List (Bucket K V)) (key : K) (x : Nat) : Bool :=
  match table.get? x with
  | some (Bucket.entry k _ _ _) => decide (k = key)
  | some Bucket.empty => true
  | _ => false

/-! ### Basic probing lemmas -/

@[simp] theorem probeSt_zero (cap h : Nat) : probeSt cap h 0 = (h % cap, h) := rfl

theorem probeSt_succ (cap h n : Nat) :
    probeSt cap h (n + 1) =
      ((5 * (probeSt cap h n).1 + 1 + (probeSt cap h n).2 / 32) % cap,
        (probeSt cap h n).2 / 32) := rfl

theorem probeSt_snd (cap h : Nat) : ∀ n, (probeSt cap h n).2 = h / 32 ^ n := by
  intro n
  induction n with
  | zero => simp
  | succ n ih => rw [probeSt_succ]; simp [ih, Nat.div_div_eq_div_mul, Nat.pow_succ]

theorem probeSt_fst_lt (cap h : Nat) (hc : 0 < cap) :
    ∀ n, (probeSt cap h n).1 < cap := by
  intro n
  cases n with
  | zero => simpa using Nat.mod_lt _ hc
  | succ n => rw [probeSt_succ]; exact Nat.mod_lt _ hc

theorem lookupAux_eq_scan (table : List (Bucket K V)) (cap : Nat) (key : K)
    (h : Nat) : ∀ fuel n,
    lookupAux table cap key fuel (probeSt cap h n).1 (probeSt cap h n).2 =
      scanLookup table cap key h fuel n := by
  intro fuel
  induction fuel with
  | zero => intro n; rfl
  | succ fuel ih =>
    intro n
    rw [lookupAux, scanLookup]
    cases hslot : table.get? (probeSt cap h n).1 with
    | none => rfl
    | some b =>
      cases b with
      | entry k v hh i =>
        by_cases hk : k = key
        · simp [hk]
        · simp only [hk, if_false]
          have := ih (n + 1)
          rw [probeSt_succ] at this
          exact this
      | empty => rfl
      | tombstone =>
        have := ih (n + 1)
        rw [probeSt_succ] at this
        exact this

theorem forceInsertAux_eq_scan (table : List (Bucket K V)) (cap : Nat) (key : K)
    (value : V) (keyHash : Nat) : ∀ fuel n,
    forceInsertAux table cap key value keyHash fuel
        (probeSt cap keyHash n).1 (probeSt cap keyHash n).2 =
      scanPlace table cap key value keyHash fuel n := by
  intro fuel
  induction fuel with
  | zero => intro n; rfl
  | succ fuel ih =>
    intro n
    rw [forceInsertAux, scanPlace]
    cases hslot : table.get? (probeSt cap keyHash n).1 with
    | none => rfl
    | some b =>
      cases b with
      | entry k v2 hh i =>
        by_cases hk : k = key
        · simp [hk]
        · simp only [hk, if_false]
          have := ih (n + 1)
          rw [probeSt_succ] at this
          exact this
      | empty => rfl
      | tombstone => rfl

theorem lookupD_eq_scan (hash : K → Nat) (d : Dict K V) (key : K) (fuel : Nat) :
    lookupD hash d key fuel = scanLookup d.table d.capacity key (hash key) fuel 0 := by
  have := lookupAux_eq_scan d.table d.capacity key (hash key) fuel 0
  simpa [lookupD] using this

theorem forceInsertD_eq_scan (table : List (Bucket K V)) (cap : Nat) (key : K)
    (value : V) (keyHash fuel : Nat) :
    forceInsertD table cap key value keyHash fuel =
      scanPlace table cap key value keyHash fuel 0 := by
  have := forceInsertAux_eq_scan table cap key value keyHash fuel 0
  simpa [forceInsertD] using this

/-! ### Fuel monotonicity -/

theorem scanLookup_mono {table : List (Bucket K V)} {cap : Nat} {key : K}
    {h : Nat} {r : Option (K × V × Nat)} :
    ∀ {fuel fuel2 n : Nat}, fuel ≤ fuel2 →
    scanLookup table cap key h fuel n = some r →
    scanLookup table cap key h fuel2 n = some r := by
  intro fuel
  induction fuel with
  | zero => intro fuel2 n _ hres; simp [scanLookup] at hres
  | succ fuel ih =>
    intro fuel2 n hle hres
    obtain ⟨fuel2, rfl⟩ : ∃ f2, fuel2 = f2 + 1 :=
      ⟨fuel2 - 1, by omega⟩
    rw [scanLookup] at hres ⊢
    split at hres
    case _ k v hh i heq =>
      by_cases hk : k = key
      · simpa [hk] using hres
      · simp only [hk, if_false] at hres ⊢
        exact ih (by omega) hres
    case _ heq => exact ih (by omega) hres
    case _ heq => exact hres
    case _ heq => exact hres

theorem scanPlace_mono {table : List (Bucket K V)} {cap : Nat} {key : K}
    {value : V} {keyHash : Nat} {t2 : List (Bucket K V)} :
    ∀ {fuel fuel2 n : Nat}, fuel ≤ fuel2 →
    scanPlace table cap key value keyHash fuel n = some t2 →
    scanPlace table cap key value keyHash fuel2 n = some t2 := by
  intro fuel
  induction fuel with
  | zero => intro fuel2 n _ hres; simp [scanPlace] at hres
  | succ fuel ih =>
    intro fuel2 n hle hres
    obtain ⟨fuel2, rfl⟩ : ∃ f2, fuel2 = f2 + 1 := ⟨fuel2 - 1, by omega⟩
    rw [scanPlace] at hres ⊢
    split at hres
    case _ k v2 hh i heq =>
      by_cases hk : k = key
      · simpa [hk] using hres
      · simp only [hk, if_false] at hres ⊢
        exact ih (by omega) hres
    case _ b heq hne => exact hres
    case _ heq => exact hres

theorem lookupD_mono {hash : K → Nat} {d : Dict K V} {key : K}
    {r : Option (K × V × Nat)} {fuel fuel2 : Nat} (hle : fuel ≤ fuel2)
    (hres : lookupD hash d key fuel = some r) :
    lookupD hash d key fuel2 = some r := by
  rw [lookupD_eq_scan] at hres ⊢
  exact scanLookup_mono hle hres

theorem forceInsertD_mono {table : List (Bucket K V)} {cap : Nat} {key : K}
    {value : V} {keyHash : Nat} {t2 : List (Bucket K V)} {fuel fuel2 : Nat}
    (hle : fuel ≤ fuel2)
    (hres : forceInsertD table cap key value keyHash fuel = some t2) :
    forceInsertD table cap key value keyHash fuel2 = some t2 := by
  rw [forceInsertD_eq_scan] at hres ⊢
  exact scanPlace_mono hle hres

theorem reinsertAll_mono {cap : Nat} {t2 : List (Bucket K V)}
    {fuel fuel2 : Nat} (hle : fuel ≤ fuel2) :
    ∀ {l acc : List (Bucket K V)}, reinsertAll cap fuel l acc = some t2 →
    reinsertAll cap fuel2 l acc = some t2 := by
  intro l
  induction l with
  | nil => intro acc hres; simpa [reinsertAll] using hres
  | cons b rest ih =>
    intro acc hres
    cases b with
    | entry k v h i =>
      rw [reinsertAll] at hres ⊢
      cases hfi : forceInsertD acc cap k v h fuel with
      | none => rw [hfi] at hres; exact absurd hres (by simp)
      | some acc2 =>
        rw [hfi] at hres
        rw [forceInsertD_mono hle hfi]
        exact ih hres
    | empty => rw [reinsertAll] at hres ⊢; exact ih hres
    | tombstone => rw [reinsertAll] at hres ⊢; exact ih hres

theorem resizeF_mono {d : Dict K V} {newCap : Nat} {d2 : Dict K V}
    {fuel fuel2 : Nat} (hle : fuel ≤ fuel2)
    (hres : resizeF d newCap fuel = some d2) :
    resizeF d newCap fuel2 = some d2 := by
  rw [resizeF] at hres ⊢
  cases hri : reinsertAll newCap fuel d.table (List.replicate newCap Bucket.empty) with
  | none => rw [hri] at hres; exact absurd hres (by simp)
  | some t =>
    rw [hri] at hres
    rw [reinsertAll_mono hle hri]
    exact hres

theorem insertF_mono {hash : K → Nat} {d : Dict K V} {key : K} {value : V}
    {d2 : Dict K V} {fuel fuel2 : Nat} (hle : fuel ≤ fuel2)
    (hres : insertF hash d key value fuel = some d2) :
    insertF hash d key value fuel2 = some d2 := by
  rw [insertF] at hres ⊢
  split at hres
  case _ dmid heq =>
    have heq2 : (if 2 * (d.capacity / 3) < d.size + 1
        then resizeF ⟨d.capacity, d.size + 1, d.table⟩ (2 * d.capacity) fuel2
        else some ⟨d.capacity, d.size + 1, d.table⟩) = some dmid := by
      by_cases hc : 2 * (d.capacity / 3) < d.size + 1
      · rw [if_pos hc]
        rw [if_pos hc] at heq
        exact resizeF_mono hle heq
      · rw [if_neg hc]
        rw [if_neg hc] at heq
        exact heq
    rw [heq2]
    split at hres
    case _ t hfi =>
      have := forceInsertD_mono hle hfi
      simp only [this]
      exact hres
    case _ hfi => cases hres
  case _ heq => cases hres

theorem shrinkCheck_mono {out : Option (K × V)} {d1 : Dict K V}
    {r : Option (K × V) × Dict K V} {fuel fuel2 : Nat} (hle : fuel ≤ fuel2)
    (hres : shrinkCheck out d1 fuel = some r) :
    shrinkCheck out d1 fuel2 = some r := by
  rw [shrinkCheck] at hres ⊢
  split at hres
  case _ hc =>
    rw [if_pos hc]
    split at hres
    case _ d3 hrs =>
      have := resizeF_mono hle hrs
      simp only [this]
      exact hres
    case _ hrs => cases hres
  case _ hc =>
    rw [if_neg hc]
    exact hres

theorem removeF_mono {hash : K → Nat} {d : Dict K V} {key : K}
    {out : Option (K × V)} {d2 : Dict K V} {fuel fuel2 : Nat} (hle : fuel ≤ fuel2)
    (hres : removeF hash d key fuel = some (out, d2)) :
    removeF hash d key fuel2 = some (out, d2) := by
  rw [removeF] at hres ⊢
  split at hres
  case _ hlk => cases hres
  case _ hlk =>
    rw [lookupD_mono hle hlk]
    exact shrinkCheck_mono hle hres
  case _ k v idx hlk =>
    rw [lookupD_mono hle hlk]
    exact shrinkCheck_mono hle hres

theorem LookupR_det {hash : K → Nat} {d : Dict K V} {key : K}
    {r r2 : Option (K × V × Nat)} (h1 : LookupR hash d key r)
    (h2 : LookupR hash d key r2) : r = r2 := by
  obtain ⟨f1, hf1⟩ := h1
  obtain ⟨f2, hf2⟩ := h2
  have e1 := lookupD_mono (Nat.le_max_left f1 f2) hf1
  have e2 := lookupD_mono (Nat.le_max_right f1 f2) hf2
  rw [e1] at e2
  exact Option.some_injective _ e2

theorem InsertR_det {hash : K → Nat} {d : Dict K V} {key : K} {value : V}
    {d1 d2 : Dict K V} (h1 : InsertR hash d key value d1)
    (h2 : InsertR hash d key value d2) : d1 = d2 := by
  obtain ⟨f1, hf1⟩ := h1
  obtain ⟨f2, hf2⟩ := h2
  have e1 := insertF_mono (Nat.le_max_left f1 f2) hf1
  have e2 := insertF_mono (Nat.le_max_right f1 f2) hf2
  rw [e1] at e2
  exact Option.some_injective _ e2

theorem RemoveR_det {hash : K → Nat} {d : Dict K V} {key : K}
    {o1 o2 : Option (K × V)} {d1 d2 : Dict K V} (h1 : RemoveR hash d key o1 d1)
    (h2 : RemoveR hash d key o2 d2) : o1 = o2 ∧ d1 = d2 := by
  obtain ⟨f1, hf1⟩ := h1
  obtain ⟨f2, hf2⟩ := h2
  have e1 := removeF_mono (Nat.le_max_left f1 f2) hf1
  have e2 := removeF_mono (Nat.le_max_right f1 f2) hf2
  rw [e1] at e2
  have := Option.some_injective _ e2
  exact ⟨congrArg Prod.fst this, congrArg Prod.snd this⟩

/-! ### Walk characterizations of the two loops -/

theorem scanLookup_char {table : List (Bucket K V)} {cap : Nat} {key : K}
    {h : Nat} {r : Option (K × V × Nat)} :
    ∀ {fuel n : Nat}, scanLookup table cap key h fuel n = some r →
    ∃ m, n ≤ m ∧ m < n + fuel ∧
      (∀ j, n ≤ j → j < m → isAdvance key table (probeSt cap h j).1) ∧
      stopsAt table key (probeSt cap h m).1 r := by
  intro fuel
  induction fuel with
  | zero => intro n hres; simp [scanLookup] at hres
  | succ fuel ih =>
    intro n hres
    rw [scanLookup] at hres
    split at hres
    case _ k v hh i heq =>
      by_cases hk : k = key
      · refine ⟨n, le_refl n, by omega, fun j h1 h2 => absurd h1 (by omega), ?_⟩
        rw [if_pos hk] at hres
        exact Or.inl ⟨k, v, hh, i, heq, hk, (Option.some_injective _ hres).symm⟩
      · rw [if_neg hk] at hres
        obtain ⟨m, hm1, hm2, hpre, hstop⟩ := ih hres
        refine ⟨m, by omega, by omega, fun j h1 h2 => ?_, hstop⟩
        rcases Nat.eq_or_lt_of_le h1 with he | hlt
        · exact he ▸ Or.inl ⟨k, v, hh, i, heq, hk⟩
        · exact hpre j hlt h2
    case _ heq =>
      obtain ⟨m, hm1, hm2, hpre, hstop⟩ := ih hres
      refine ⟨m, by omega, by omega, fun j h1 h2 => ?_, hstop⟩
      rcases Nat.eq_or_lt_of_le h1 with he | hlt
      · exact he ▸ Or.inr heq
      · exact hpre j hlt h2
    case _ heq =>
      exact ⟨n, le_refl n, by omega, fun j h1 h2 => absurd h1 (by omega),
        Or.inr ⟨heq, (Option.some_injective _ hres).symm⟩⟩
    case _ heq => exact absurd hres (by simp)

theorem scanLookup_of_walk {table : List (Bucket K V)} {cap : Nat} {key : K}
    {h : Nat} {r : Option (K × V × Nat)} :
    ∀ {dist n m : Nat}, m = n + dist →
    (∀ j, n ≤ j → j < m → isAdvance key table (probeSt cap h j).1) →
    stopsAt table key (probeSt cap h m).1 r →
    scanLookup table cap key h (dist + 1) n = some r := by
  intro dist
  induction dist with
  | zero =>
    intro n m hm hpre hstop
    subst hm
    rw [scanLookup]
    rcases hstop with ⟨k, v, hh, i, heq, hk, hr⟩ | ⟨heq, hr⟩
    · rw [heq]; simp [hk, hr]
    · rw [heq]; simp [hr]
  | succ dist ih =>
    intro n m hm hpre hstop
    have hadv := hpre n (le_refl n) (by omega)
    have hrec := ih (n := n + 1) (m := m) (by omega)
      (fun j h1 h2 => hpre j (by omega) h2) hstop
    rw [scanLookup]
    rcases hadv with ⟨k, v, hh, i, heq, hk⟩ | heq
    · rw [heq]; simp [hk]; exact hrec
    · rw [heq]; exact hrec

theorem scanPlace_char {table : List (Bucket K V)} {cap : Nat} {key : K}
    {value : V} {keyHash : Nat} {t2 : List (Bucket K V)} :
    ∀ {fuel n : Nat}, scanPlace table cap key value keyHash fuel n = some t2 →
    ∃ m, n ≤ m ∧ m < n + fuel ∧
      (∀ j, n ≤ j → j < m → isMismatch key table (probeSt cap keyHash j).1) ∧
      placeOutcome table key value keyHash (probeSt cap keyHash m).1 t2 := by
  intro fuel
  induction fuel with
  | zero => intro n hres; simp [scanPlace] at hres
  | succ fuel ih =>
    intro n hres
    rw [scanPlace] at hres
    split at hres
    case _ k v hh i heq =>
      by_cases hk : k = key
      · refine ⟨n, le_refl n, by omega, fun j h1 h2 => absurd h1 (by omega), ?_⟩
        rw [if_pos hk] at hres
        exact Or.inl ⟨k, v, hh, i, heq, hk, (Option.some_injective _ hres).symm⟩
      · rw [if_neg hk] at hres
        obtain ⟨m, hm1, hm2, hpre, hstop⟩ := ih hres
        refine ⟨m, by omega, by omega, fun j h1 h2 => ?_, hstop⟩
        rcases Nat.eq_or_lt_of_le h1 with he | hlt
        · exact he ▸ ⟨k, v, hh, i, heq, hk⟩
        · exact hpre j hlt h2
    case _ b hne heq =>
      refine ⟨n, le_refl n, by omega, fun j h1 h2 => absurd h1 (by omega), ?_⟩
      cases b with
      | entry k v hh i => exact absurd rfl (hne k v hh i)
      | empty =>
        exact Or.inr ⟨Or.inl heq, (Option.some_injective _ hres).symm⟩
      | tombstone =>
        exact Or.inr ⟨Or.inr heq, (Option.some_injective _ hres).symm⟩
    case _ heq => exact absurd hres (by simp)

theorem scanPlace_of_walk {table : List (Bucket K V)} {cap : Nat} {key : K}
    {value : V} {keyHash : Nat} {t2 : List (Bucket K V)} :
    ∀ {dist n m : Nat}, m = n + dist →
    (∀ j, n ≤ j → j < m → isMismatch key table (probeSt cap keyHash j).1) →
    placeOutcome table key value keyHash (probeSt cap keyHash m).1 t2 →
    scanPlace table cap key value keyHash (dist + 1) n = some t2 := by
  intro dist
  induction dist with
  | zero =>
    intro n m hm hpre hstop
    subst hm
    rw [scanPlace]
    rcases hstop with ⟨k, v, hh, i, heq, hk, ht⟩ | ⟨heq | heq, ht⟩
    · rw [heq]; simp [hk, ht]
    · rw [heq]; simp [ht]
    · rw [heq]; simp [ht]
  | succ dist ih =>
    intro n m hm hpre hstop
    have hadv := hpre n (le_refl n) (by omega)
    have hrec := ih (n := n + 1) (m := m) (by omega)
      (fun j h1 h2 => hpre j (by omega) h2) hstop
    obtain ⟨k, v, hh, i, heq, hk⟩ := hadv
    rw [scanPlace, heq]
    simp [hk]
    exact hrec

/-! ### Slot-update helpers -/

theorem get?_some_lt {l : List (Bucket K V)} {x : Nat} {b : Bucket K V}
    (h : l.get? x = some b) : x < l.length := by
  by_contra hx
  rw [List.get?_eq_none.mpr (by omega)] at h
  cases h

theorem get?_set_self {l : List (Bucket K V)} {x : Nat} {b b2 : Bucket K V}
    (h : l.get? x = some b) : (l.set x b2).get? x = some b2 :=
  List.get?_set_eq_of_lt b2 (get?_some_lt h)

theorem get?_set_elim {l : List (Bucket K V)} {N x : Nat} {b2 b3 : Bucket K V}
    (h : (l.set N b2).get? x = some b3) :
    (x = N ∧ b3 = b2) ∨ (x ≠ N ∧ l.get? x = some b3) := by
  by_cases hx : x = N
  · subst hx
    rw [List.get?_set_eq] at h
    cases hl : l.get? x with
    | none => rw [hl] at h; cases h
    | some b => rw [hl] at h; exact Or.inl ⟨rfl, (Option.some_injective _ h).symm⟩
  · rw [List.get?_set_ne _ _ (fun he => hx he.symm)] at h
    exact Or.inr ⟨hx, h⟩

theorem placeOutcome_elim {table : List (Bucket K V)} {key : K} {value : V}
    {keyHash x : Nat} {t2 : List (Bucket K V)}
    (hp : placeOutcome table key value keyHash x t2) :
    ∃ h2, t2 = table.set x (Bucket.entry key value h2 x) ∧
      ((∃ v0 i0, table.get? x = some (Bucket.entry key v0 h2 i0)) ∨
        ((table.get? x = some Bucket.empty ∨
          table.get? x = some Bucket.tombstone) ∧ h2 = keyHash)) := by
  rcases hp with ⟨k, v, h0, i, heq, hk, ht⟩ | ⟨hcase, ht⟩
  · subst hk
    exact ⟨h0, ht, Or.inl ⟨v, i, heq⟩⟩
  · exact ⟨keyHash, ht, Or.inr ⟨hcase, rfl⟩⟩

theorem scanLookup_found {table : List (Bucket K V)} {cap : Nat} {key : K}
    {h fuel n : Nat} {k : K} {v : V} {i : Nat}
    (hres : scanLookup table cap key h fuel n = some (some (k, v, i))) :
    k = key ∧ ∃ h2 i2, table.get? i = some (Bucket.entry k v h2 i2) := by
  obtain ⟨m, _, _, _, hstop⟩ := scanLookup_char hres
  rcases hstop with ⟨k0, v0, h0, i0, heq, hk, hr⟩ | ⟨_, hr⟩
  · obtain ⟨rfl, rfl, rfl⟩ : k0 = k ∧ v0 = v ∧ (probeSt cap h m).1 = i := by
      have := Option.some_injective _ hr.symm
      exact ⟨congrArg (fun p => p.1) this,
        congrArg (fun p => p.2.1) this, congrArg (fun p => p.2.2) this⟩
    exact ⟨hk, h0, i0, heq⟩
  · cases hr

/-- A successful lookup survives replacing one slot, provided the new
bucket still lets a probe for `key` advance and the old slot did not hold
`key`. -/
theorem scanLookup_pres_set {table : List (Bucket K V)} {key : K} {N : Nat}
    {b2 : Bucket K V}
    (Hb2 : (∃ k2 v2 h2 i2, b2 = Bucket.entry k2 v2 h2 i2 ∧ k2 ≠ key) ∨
      b2 = Bucket.tombstone)
    (Hkey : ∀ k0 v0 h0 i0, table.get? N = some (Bucket.entry k0 v0 h0 i0) →
      k0 ≠ key)
    {cap h fuel n : Nat} {k : K} {v : V} {i : Nat}
    (hres : scanLookup table cap key h fuel n = some (some (k, v, i))) :
    scanLookup (table.set N b2) cap key h fuel n = some (some (k, v, i)) := by
  obtain ⟨m, hm1, hm2, hpre, hstop⟩ := scanLookup_char hres
  have hstop2 : stopsAt (table.set N b2) key (probeSt cap h m).1 (some (k, v, i)) := by
    rcases hstop with ⟨k0, v0, h0, i0, heq, hk, hr⟩ | ⟨_, hr⟩
    · have hne : (probeSt cap h m).1 ≠ N := by
        intro he
        exact (Hkey k0 v0 h0 i0 (he ▸ heq)) hk
      exact Or.inl ⟨k0, v0, h0, i0,
        (List.get?_set_ne _ _ (fun he => hne he.symm)).trans heq, hk, hr⟩
    · cases hr
  have hpre2 : ∀ j, n ≤ j → j < m →
      isAdvance key (table.set N b2) (probeSt cap h j).1 := by
    intro j h1 h2
    have hadv := hpre j h1 h2
    by_cases hj : (probeSt cap h j).1 = N
    · have hNlt : N < table.length := by
        rcases hadv with ⟨k0, v0, h0, i0, heq, _⟩ | heq
        · exact hj ▸ get?_some_lt heq
        · exact hj ▸ get?_some_lt heq
      have hget : (table.set N b2).get? (probeSt cap h j).1 = some b2 := by
        rw [hj]
        exact List.get?_set_eq_of_lt b2 hNlt
      rcases Hb2 with ⟨k2, v2, h2, i2, rfl, hk2⟩ | rfl
      · exact Or.inl ⟨k2, v2, h2, i2, hget, hk2⟩
      · exact Or.inr hget
    · rcases hadv with ⟨k0, v0, h0, i0, heq, hk0⟩ | heq
      · exact Or.inl ⟨k0, v0, h0, i0,
          (List.get?_set_ne _ _ (fun he => hj he.symm)).trans heq, hk0⟩
      · exact Or.inr ((List.get?_set_ne _ _ (fun he => hj he.symm)).trans heq)
  have := scanLookup_of_walk (Nat.add_sub_cancel' hm1).symm hpre2 hstop2
  exact scanLookup_mono (by omega) this

/-- After `force_insert` of `key`, a lookup of `key` finds the freshly
written value. -/
theorem scanLookup_after_place {table : List (Bucket K V)} {cap : Nat}
    {key : K} {value : V} {keyHash fuel n : Nat} {t2 : List (Bucket K V)}
    (hres : scanPlace table cap key value keyHash fuel n = some t2) :
    ∃ j, scanLookup t2 cap key keyHash fuel n = some (some (key, value, j)) := by
  obtain ⟨m, hm1, hm2, hpre, hout⟩ := scanPlace_char hres
  obtain ⟨h2, ht2, hcase⟩ := placeOutcome_elim hout
  refine ⟨(probeSt cap keyHash m).1, ?_⟩
  have hNsome : ∃ b, table.get? (probeSt cap keyHash m).1 = some b := by
    rcases hcase with ⟨v0, i0, heq⟩ | ⟨heq | heq, _⟩
    · exact ⟨_, heq⟩
    · exact ⟨_, heq⟩
    · exact ⟨_, heq⟩
  obtain ⟨bN, hbN⟩ := hNsome
  have hstop2 : stopsAt t2 key (probeSt cap keyHash m).1
      (some (key, value, (probeSt cap keyHash m).1)) := by
    refine Or.inl ⟨key, value, h2, (probeSt cap keyHash m).1, ?_, rfl, rfl⟩
    rw [ht2]
    exact get?_set_self hbN
  have hpre2 : ∀ j, n ≤ j → j < m →
      isAdvance key t2 (probeSt cap keyHash j).1 := by
    intro j h1 h2j
    obtain ⟨k0, v0, h0, i0, heq, hk0⟩ := hpre j h1 h2j
    have hne : (probeSt cap keyHash j).1 ≠ (probeSt cap keyHash m).1 := by
      intro he
      rw [he, hbN] at heq
      rcases hcase with ⟨v1, i1, heq2⟩ | ⟨heq2 | heq2, _⟩ <;>
        rw [hbN] at heq2 <;>
        [skip; exact (by cases heq2 ▸ heq); exact (by cases heq2 ▸ heq)]
      · have h3 := Option.some_injective _ (heq2 ▸ heq)
        exact hk0 (by cases h3; rfl)
    refine Or.inl ⟨k0, v0, h0, i0, ?_, hk0⟩
    rw [ht2]
    exact (List.get?_set_ne _ _ (fun he => hne he.symm)).trans heq
  have := scanLookup_of_walk (Nat.add_sub_cancel' hm1).symm hpre2 hstop2
  exact scanLookup_mono (by omega) this

/-- A lookup that terminates on a table not containing `key` reports
"not found". -/
theorem scanLookup_absent {table : List (Bucket K V)} {cap : Nat} {key : K}
    {h fuel n : Nat} {r : Option (K × V × Nat)}
    (habs : KeyAbsent key table)
    (hres : scanLookup table cap key h fuel n = some r) : r = none := by
  obtain ⟨m, _, _, _, hstop⟩ := scanLookup_char hres
  rcases hstop with ⟨k0, v0, h0, i0, heq, hk, hr⟩ | ⟨_, hr⟩
  · exact absurd hk (habs _ k0 v0 h0 i0 heq)
  · exact hr

theorem keyAbsent_set {table : List (Bucket K V)} {key : K} {N : Nat}
    {b2 : Bucket K V}
    (Hb2 : ∀ k2 v2 h2 i2, b2 = Bucket.entry k2 v2 h2 i2 → k2 ≠ key)
    (habs : KeyAbsent key table) : KeyAbsent key (table.set N b2) := by
  intro x k v h i hget
  rcases get?_set_elim hget with ⟨rfl, rfl⟩ | ⟨_, hget2⟩
  · exact Hb2 k v h i rfl
  · exact habs x k v h i hget2

theorem keyUnique_set {table : List (Bucket K V)} {key : K} {N : Nat}
    {b2 : Bucket K V}
    (Hb2 : ∀ k2 v2 h2 i2, b2 = Bucket.entry k2 v2 h2 i2 → k2 ≠ key)
    (hu : KeyUnique key table) : KeyUnique key (table.set N b2) := by
  intro x y kx vx hx ix ky vy hy iy hgx hkx hgy hky
  rcases get?_set_elim hgx with ⟨rfl, rfl⟩ | ⟨_, hgx2⟩
  · exact absurd hkx (Hb2 kx vx hx ix rfl)
  · rcases get?_set_elim hgy with ⟨rfl, rfl⟩ | ⟨_, hgy2⟩
    · exact absurd hky (Hb2 ky vy hy iy rfl)
    · exact hu x y kx vx hx ix ky vy hy iy hgx2 hkx hgy2 hky

theorem hashesOK_set {hash : K → Nat} {table : List (Bucket K V)} {N : Nat}
    {b2 : Bucket K V}
    (Hb2 : ∀ k2 v2 h2 i2, b2 = Bucket.entry k2 v2 h2 i2 → h2 = hash k2)
    (hok : HashesOK hash table) : HashesOK hash (table.set N b2) := by
  intro x k v h i hget
  rcases get?_set_elim hget with ⟨rfl, rfl⟩ | ⟨_, hget2⟩
  · exact Hb2 k v h i rfl
  · exact hok x k v h i hget2

theorem hashesOK_place {hash : K → Nat} {table : List (Bucket K V)}
    {cap : Nat} {key2 : K} {value : V} {keyHash fuel n : Nat}
    {t2 : List (Bucket K V)} (hok : HashesOK hash table)
    (hkh : keyHash = hash key2)
    (hres : scanPlace table cap key2 value keyHash fuel n = some t2) :
    HashesOK hash t2 := by
  obtain ⟨m, _, _, _, hout⟩ := scanPlace_char hres
  obtain ⟨h2, ht2, hcase⟩ := placeOutcome_elim hout
  subst ht2
  refine hashesOK_set ?_ hok
  intro k2 v2 h3 i2 hb
  obtain ⟨rfl, rfl, rfl, rfl⟩ : key2 = k2 ∧ value = v2 ∧ h2 = h3 ∧
      (probeSt cap keyHash m).1 = i2 := by
    cases hb; exact ⟨rfl, rfl, rfl, rfl⟩
  rcases hcase with ⟨v0, i0, heq⟩ | ⟨_, rfl⟩
  · exact hok _ _ _ _ _ heq
  · exact hkh

theorem length_place {table : List (Bucket K V)} {cap : Nat} {key : K}
    {value : V} {keyHash fuel n : Nat} {t2 : List (Bucket K V)}
    (hres : scanPlace table cap key value keyHash fuel n = some t2) :
    t2.length = table.length := by
  obtain ⟨m, _, _, _, hout⟩ := scanPlace_char hres
  obtain ⟨h2, ht2, _⟩ := placeOutcome_elim hout
  rw [ht2, List.length_set]

theorem keyAbsent_place {table : List (Bucket K V)} {cap : Nat} {key key2 : K}
    {value : V} {keyHash fuel n : Nat} {t2 : List (Bucket K V)}
    (hne : key2 ≠ key) (habs : KeyAbsent key table)
    (hres : scanPlace table cap key2 value keyHash fuel n = some t2) :
    KeyAbsent key t2 := by
  obtain ⟨m, _, _, _, hout⟩ := scanPlace_char hres
  obtain ⟨h2, ht2, _⟩ := placeOutcome_elim hout
  subst ht2
  refine keyAbsent_set ?_ habs
  intro k2 v2 h3 i2 hb
  cases hb
  exact hne

theorem keyUnique_place_other {table : List (Bucket K V)} {cap : Nat}
    {key key2 : K} {value : V} {keyHash fuel n : Nat} {t2 : List (Bucket K V)}
    (hne : key2 ≠ key) (hu : KeyUnique key table)
    (hres : scanPlace table cap key2 value keyHash fuel n = some t2) :
    KeyUnique key t2 := by
  obtain ⟨m, _, _, _, hout⟩ := scanPlace_char hres
  obtain ⟨h2, ht2, _⟩ := placeOutcome_elim hout
  subst ht2
  refine keyUnique_set ?_ hu
  intro k2 v2 h3 i2 hb
  cases hb
  exact hne

/-- A successful lookup of `key` survives a `force_insert` of a different
key on the same table. -/
theorem scanLookup_pres_place {table : List (Bucket K V)} {cap : Nat}
    {key key2 : K} {value : V} {keyHash fuelP nP : Nat}
    {t2 : List (Bucket K V)} (hne : key2 ≠ key)
    (hpl : scanPlace table cap key2 value keyHash fuelP nP = some t2)
    {h fuel n : Nat} {k : K} {v : V} {i : Nat}
    (hlk : scanLookup table cap key h fuel n = some (some (k, v, i))) :
    scanLookup t2 cap key h fuel n = some (some (k, v, i)) := by
  obtain ⟨m, _, _, _, hout⟩ := scanPlace_char hpl
  obtain ⟨h2, ht2, hcase⟩ := placeOutcome_elim hout
  subst ht2
  refine scanLookup_pres_set (Or.inl ⟨key2, value, h2, _, rfl, hne⟩) ?_ hlk
  intro k0 v0 h0 i0 heq hk0
  rcases hcase with ⟨v1, i1, heq2⟩ | ⟨heq2 | heq2, _⟩ <;> rw [heq2] at heq
  · exact hne (by cases heq; exact hk0)
  · cases heq
  · cases heq

/-! ### The rehash fold -/

theorem reinsertAll_nil {cap fuel : Nat} {acc : List (Bucket K V)} :
    reinsertAll cap fuel ([] : List (Bucket K V)) acc = some acc := rfl

theorem reinsertAll_cons_entry {cap fuel : Nat} {k : K} {v : V} {h i : Nat}
    {rest acc : List (Bucket K V)} :
    reinsertAll cap fuel (Bucket.entry k v h i :: rest) acc =
      match forceInsertD acc cap k v h fuel with
      | some acc2 => reinsertAll cap fuel rest acc2
      | none => none := rfl

theorem reinsertAll_length {cap fuel : Nat} :
    ∀ {l acc t2 : List (Bucket K V)}, reinsertAll cap fuel l acc = some t2 →
    t2.length = acc.length := by
  intro l
  induction l with
  | nil => intro acc t2 h; cases h; rfl
  | cons b rest ih =>
    intro acc t2 h
    cases b with
    | entry k v hh i =>
      rw [reinsertAll_cons_entry] at h
      cases hfi : forceInsertD acc cap k v hh fuel with
      | none => rw [hfi] at h; cases h
      | some acc2 =>
        rw [hfi] at h
        rw [forceInsertD_eq_scan] at hfi
        exact (ih h).trans (length_place hfi)
    | empty => exact ih h
    | tombstone => exact ih h

theorem reinsertAll_hashesOK {hash : K → Nat} {cap fuel : Nat} :
    ∀ {l acc t2 : List (Bucket K V)}, reinsertAll cap fuel l acc = some t2 →
    (∀ x k v h i, l.get? x = some (Bucket.entry k v h i) → h = hash k) →
    HashesOK hash acc → HashesOK hash t2 := by
  intro l
  induction l with
  | nil => intro acc t2 h _ hacc; cases h; exact hacc
  | cons b rest ih =>
    intro acc t2 h hl hacc
    have hrest : ∀ x k v hh i, rest.get? x = some (Bucket.entry k v hh i) →
        hh = hash k := fun x k v hh i hx => hl (x + 1) k v hh i hx
    cases b with
    | entry k v hh i =>
      rw [reinsertAll_cons_entry] at h
      cases hfi : forceInsertD acc cap k v hh fuel with
      | none => rw [hfi] at h; cases h
      | some acc2 =>
        rw [hfi] at h
        rw [forceInsertD_eq_scan] at hfi
        have hhk : hh = hash k := hl 0 k v hh i rfl
        exact ih h hrest (hashesOK_place hacc hhk hfi)
    | empty => exact ih h hrest hacc
    | tombstone => exact ih h hrest hacc

theorem reinsertAll_absent {cap fuel : Nat} {key : K} :
    ∀ {l acc t2 : List (Bucket K V)}, reinsertAll cap fuel l acc = some t2 →
    (∀ x k v h i, l.get? x = some (Bucket.entry k v h i) → k ≠ key) →
    KeyAbsent key acc → KeyAbsent key t2 := by
  intro l
  induction l with
  | nil => intro acc t2 h _ hacc; cases h; exact hacc
  | cons b rest ih =>
    intro acc t2 h hl hacc
    have hrest : ∀ x k v hh i, rest.get? x = some (Bucket.entry k v hh i) →
        k ≠ key := fun x k v hh i hx => hl (x + 1) k v hh i hx
    cases b with
    | entry k v hh i =>
      rw [reinsertAll_cons_entry] at h
      cases hfi : forceInsertD acc cap k v hh fuel with
      | none => rw [hfi] at h; cases h
      | some acc2 =>
        rw [hfi] at h
        rw [forceInsertD_eq_scan] at hfi
        exact ih h hrest (keyAbsent_place (hl 0 k v hh i rfl) hacc hfi)
    | empty => exact ih h hrest hacc
    | tombstone => exact ih h hrest hacc

theorem reinsertAll_unique_other {cap fuel : Nat} {key : K} :
    ∀ {l acc t2 : List (Bucket K V)}, reinsertAll cap fuel l acc = some t2 →
    (∀ x k v h i, l.get? x = some (Bucket.entry k v h i) → k ≠ key) →
    KeyUnique key acc → KeyUnique key t2 := by
  intro l
  induction l with
  | nil => intro acc t2 h _ hacc; cases h; exact hacc
  | cons b rest ih =>
    intro acc t2 h hl hacc
    have hrest : ∀ x k v hh i, rest.get? x = some (Bucket.entry k v hh i) →
        k ≠ key := fun x k v hh i hx => hl (x + 1) k v hh i hx
    cases b with
    | entry k v hh i =>
      rw [reinsertAll_cons_entry] at h
      cases hfi : forceInsertD acc cap k v hh fuel with
      | none => rw [hfi] at h; cases h
      | some acc2 =>
        rw [hfi] at h
        rw [forceInsertD_eq_scan] at hfi
        exact ih h hrest (keyUnique_place_other (hl 0 k v hh i rfl) hacc hfi)
    | empty => exact ih h hrest hacc
    | tombstone => exact ih h hrest hacc

/-- A successful lookup of `key` in the accumulator survives reinsertion of
a list of buckets none of which holds `key`. -/
theorem reinsertAll_pres_lookup {cap fuel : Nat} {key : K} {h : Nat} :
    ∀ {l acc t2 : List (Bucket K V)}, reinsertAll cap fuel l acc = some t2 →
    (∀ x k v hh i, l.get? x = some (Bucket.entry k v hh i) → k ≠ key) →
    ∀ {v : V} {i : Nat}, (∃ f0, scanLookup acc cap key h f0 0 = some (some (key, v, i))) →
    ∃ f2, scanLookup t2 cap key h f2 0 = some (some (key, v, i)) := by
  intro l
  induction l with
  | nil => intro acc t2 hh2 _ v i hacc; cases hh2; exact hacc
  | cons b rest ih =>
    intro acc t2 hre hl v i hacc
    have hrest : ∀ x k v2 hh i2, rest.get? x = some (Bucket.entry k v2 hh i2) →
        k ≠ key := fun x k v2 hh i2 hx => hl (x + 1) k v2 hh i2 hx
    cases b with
    | entry k v2 hh i2 =>
      rw [reinsertAll_cons_entry] at hre
      cases hfi : forceInsertD acc cap k v2 hh fuel with
      | none => rw [hfi] at hre; cases hre
      | some acc2 =>
        rw [hfi] at hre
        rw [forceInsertD_eq_scan] at hfi
        obtain ⟨f0, hf0⟩ := hacc
        exact ih hre hrest
          ⟨f0, scanLookup_pres_place (hl 0 k v2 hh i2 rfl) hfi hf0⟩
    | empty => exact ih hre hrest hacc
    | tombstone => exact ih hre hrest hacc

theorem reinsertAll_append {cap fuel : Nat} :
    ∀ {l1 l2 acc : List (Bucket K V)},
    reinsertAll cap fuel (l1 ++ l2) acc =
      match reinsertAll cap fuel l1 acc with
      | some acc2 => reinsertAll cap fuel l2 acc2
      | none => none := by
  intro l1
  induction l1 with
  | nil => intro l2 acc; rfl
  | cons b rest ih =>
    intro l2 acc
    cases b with
    | entry k v hh i =>
      rw [List.cons_append, reinsertAll_cons_entry, reinsertAll_cons_entry]
      cases hfi : forceInsertD acc cap k v hh fuel with
      | none => rfl
      | some acc2 => exact ih
    | empty => exact ih
    | tombstone => exact ih

/-! ### Splitting a table at a known slot -/

theorem get?_split {l : List (Bucket K V)} {i : Nat} {b : Bucket K V}
    (h : l.get? i = some b) :
    l = l.take i ++ b :: l.drop (i + 1) ∧ (l.take i).length = i := by
  have hlt : i < l.length := get?_some_lt h
  constructor
  · have hdrop : l.drop i = b :: l.drop (i + 1) := by
      have h1 := List.get_cons_drop l ⟨i, hlt⟩
      have h2 : l.get ⟨i, hlt⟩ = b := by
        have := List.get?_eq_get hlt
        rw [this] at h
        exact Option.some_injective _ h
      rw [h2] at h1
      exact h1.symm
    calc l = l.take i ++ l.drop i := (List.take_append_drop i l).symm
    _ = l.take i ++ b :: l.drop (i + 1) := by rw [hdrop]
  · simpa using Nat.min_eq_left (le_of_lt hlt)

theorem take_keyfree {l : List (Bucket K V)} {key : K} {i : Nat} {b : Bucket K V}
    (h : l.get? i = some b)
    (honly : ∀ x k v hh i2, l.get? x = some (Bucket.entry k v hh i2) → k = key → x = i) :
    ∀ x k v hh i2, (l.take i).get? x = some (Bucket.entry k v hh i2) → k ≠ key := by
  intro x k v hh i2 hx hk
  have hxlt : x < i := by
    have := get?_some_lt hx
    have := l.length_take i
    omega
  have hlx : l.get? x = some (Bucket.entry k v hh i2) := by
    rw [← List.get?_take hxlt]
    exact hx
  exact absurd (honly x k v hh i2 hlx hk) (by omega)

theorem drop_keyfree {l : List (Bucket K V)} {key : K} {i : Nat} {b : Bucket K V}
    (h : l.get? i = some b)
    (honly : ∀ x k v hh i2, l.get? x = some (Bucket.entry k v hh i2) → k = key → x = i) :
    ∀ x k v hh i2, (l.drop (i + 1)).get? x = some (Bucket.entry k v hh i2) → k ≠ key := by
  intro x k v hh i2 hx hk
  rw [List.get?_drop] at hx
  exact absurd (honly (i + 1 + x) k v hh i2 hx hk) (by omega)

theorem replicate_get?_elim {n x : Nat} {b b2 : Bucket K V}
    (h : (List.replicate n b).get? x = some b2) : b2 = b := by
  have := List.get?_mem h
  exact List.eq_of_mem_replicate this

/-- Reinserting a table that holds `key` exactly once (with value `v` and
cached hash `hK`) into a `key`-free accumulator yields a table where `key`
is findable with value `v` and still unique. -/
theorem reinsertAll_with_key {cap fuel : Nat} {key : K} {v : V} {hK iK : Nat}
    {l1 l2 acc t2 : List (Bucket K V)}
    (hre : reinsertAll cap fuel (l1 ++ Bucket.entry key v hK iK :: l2) acc = some t2)
    (hfree1 : ∀ x k v2 hh i2, l1.get? x = some (Bucket.entry k v2 hh i2) → k ≠ key)
    (hfree2 : ∀ x k v2 hh i2, l2.get? x = some (Bucket.entry k v2 hh i2) → k ≠ key)
    (habs : KeyAbsent key acc) :
    (∃ i f2, scanLookup t2 cap key hK f2 0 = some (some (key, v, i))) ∧
      KeyUnique key t2 := by
  rw [reinsertAll_append] at hre
  cases hr1 : reinsertAll cap fuel l1 acc with
  | none => rw [hr1] at hre; cases hre
  | some accA =>
    rw [hr1] at hre
    have habsA : KeyAbsent key accA := reinsertAll_absent hr1 hfree1 habs
    have hre2 : reinsertAll cap fuel (Bucket.entry key v hK iK :: l2) accA =
        some t2 := hre
    rw [reinsertAll_cons_entry] at hre2
    cases hfi : forceInsertD accA cap key v hK fuel with
    | none => rw [hfi] at hre2; cases hre2
    | some accB =>
      rw [hfi] at hre2
      rw [forceInsertD_eq_scan] at hfi
      obtain ⟨j, hj⟩ := scanLookup_after_place hfi
      have huniqB : KeyUnique key accB := by
        obtain ⟨m, _, _, _, hout⟩ := scanPlace_char hfi
        obtain ⟨h2, ht2, hcase⟩ := placeOutcome_elim hout
        subst ht2
        intro x y kx vx hx ix ky vy hy iy hgx hkx hgy hky
        rcases get?_set_elim hgx with ⟨rfl, _⟩ | ⟨_, hgx2⟩
        · rcases get?_set_elim hgy with ⟨hy2, _⟩ | ⟨_, hgy2⟩
          · exact hy2.symm
          · exact absurd hky (habsA y ky vy hy iy hgy2)
        · exact absurd hkx (habsA x kx vx hx ix hgx2)
      exact ⟨⟨j, reinsertAll_pres_lookup hre2 hfree2 ⟨_, hj⟩⟩,
        reinsertAll_unique_other hre2 hfree2 huniqB⟩

/-! ### Elimination forms of the public operations -/

theorem insertF_elim {hash : K → Nat} {d : Dict K V} {key : K} {value : V}
    {fuel : Nat} {d2 : Dict K V} (h : insertF hash d key value fuel = some d2) :
    ∃ dmid t,
      ((¬ 2 * (d.capacity / 3) < d.size + 1 ∧
          dmid = (⟨d.capacity, d.size + 1, d.table⟩ : Dict K V)) ∨
        (2 * (d.capacity / 3) < d.size + 1 ∧
          resizeF ⟨d.capacity, d.size + 1, d.table⟩ (2 * d.capacity) fuel = some dmid)) ∧
      forceInsertD dmid.table dmid.capacity key value (hash key) fuel = some t ∧
      d2 = ⟨dmid.capacity, dmid.size, t⟩ := by
  rw [insertF] at h
  split at h
  case _ dmid heq =>
    split at h
    case _ t hfi =>
      refine ⟨dmid, t, ?_, hfi, (Option.some_injective _ h).symm⟩
      by_cases hc : 2 * (d.capacity / 3) < d.size + 1
      · rw [if_pos hc] at heq
        exact Or.inr ⟨hc, heq⟩
      · rw [if_neg hc] at heq
        exact Or.inl ⟨hc, (Option.some_injective _ heq).symm⟩
    case _ hfi => cases h
  case _ heq => cases h

theorem resizeF_elim {d : Dict K V} {newCap fuel : Nat} {d2 : Dict K V}
    (h : resizeF d newCap fuel = some d2) :
    reinsertAll newCap fuel d.table (List.replicate newCap Bucket.empty) =
        some d2.table ∧
      d2.capacity = newCap ∧ d2.size = d.size := by
  rw [resizeF] at h
  split at h
  case _ t hri =>
    have h2 := (Option.some_injective _ h).symm
    subst h2
    exact ⟨hri, rfl, rfl⟩
  case _ hri => cases h

theorem shrinkCheck_elim {out : Option (K × V)} {d1 : Dict K V} {fuel : Nat}
    {out2 : Option (K × V)} {d2 : Dict K V}
    (h : shrinkCheck out d1 fuel = some (out2, d2)) :
    out2 = out ∧
      ((¬ d1.size < d1.capacity / 3 ∧ d2 = d1) ∨
        (d1.size < d1.capacity / 3 ∧ resizeF d1 (d1.capacity / 2) fuel = some d2)) := by
  rw [shrinkCheck] at h
  split at h
  case _ hc =>
    split at h
    case _ d3 hrs =>
      have h2 : (out, d3) = (out2, d2) := Option.some_injective _ h
      obtain ⟨rfl, rfl⟩ : out = out2 ∧ d3 = d2 :=
        ⟨congrArg Prod.fst h2, congrArg Prod.snd h2⟩
      exact ⟨rfl, Or.inr ⟨hc, hrs⟩⟩
    case _ hrs => cases h
  case _ hc =>
    have h2 : (out, d1) = (out2, d2) := Option.some_injective _ h
    obtain ⟨rfl, rfl⟩ : out = out2 ∧ d1 = d2 :=
      ⟨congrArg Prod.fst h2, congrArg Prod.snd h2⟩
    exact ⟨rfl, Or.inl ⟨hc, rfl⟩⟩

theorem removeF_elim {hash : K → Nat} {d : Dict K V} {key : K} {fuel : Nat}
    {out : Option (K × V)} {d2 : Dict K V}
    (h : removeF hash d key fuel = some (out, d2)) :
    ∃ res d1, lookupD hash d key fuel = some res ∧
      ((res = none ∧ out = none ∧ d1 = d) ∨
        (∃ k0 v0 idx, res = some (k0, v0, idx) ∧ out = some (k0, v0) ∧
          d1 = (⟨d.capacity, d.size - 1, d.table.set idx Bucket.tombstone⟩ : Dict K V))) ∧
      ((¬ d1.size < d1.capacity / 3 ∧ d2 = d1) ∨
        (d1.size < d1.capacity / 3 ∧ resizeF d1 (d1.capacity / 2) fuel = some d2)) := by
  rw [removeF] at h
  split at h
  case _ hlk => cases h
  case _ hlk =>
    obtain ⟨hout, hrest⟩ := shrinkCheck_elim h
    subst hout
    exact ⟨none, d, hlk, Or.inl ⟨rfl, rfl, rfl⟩, hrest⟩
  case _ k v idx hlk =>
    obtain ⟨hout, hrest⟩ := shrinkCheck_elim h
    subst hout
    exact ⟨some (k, v, idx),
      ⟨d.capacity, d.size - 1, d.table.set idx Bucket.tombstone⟩, hlk,
      Or.inr ⟨k, v, idx, rfl, rfl, rfl⟩, hrest⟩

/-! ### Per-key preservation through the public operations -/

theorem hashesOK_replicate {hash : K → Nat} {n : Nat} :
    HashesOK hash (List.replicate n (Bucket.empty : Bucket K V)) := by
  intro x k v h i hx
  exact Bucket.noConfusion (replicate_get?_elim hx)

theorem keyAbsent_replicate {key : K} {n : Nat} :
    KeyAbsent key (List.replicate n (Bucket.empty : Bucket K V)) := by
  intro x k v h i hx
  exact Bucket.noConfusion (replicate_get?_elim hx)

theorem goodKey_resize {hash : K → Nat} {k : K} {v : V} {d : Dict K V}
    {newCap fuel : Nat} {d2 : Dict K V} (hg : GoodKey hash k v d)
    (hres : resizeF d newCap fuel = some d2) :
    GoodKey hash k v d2 := by
  obtain ⟨hlen, hok, huniq, i, f, hf⟩ := hg
  obtain ⟨hri, hcap, hsz⟩ := resizeF_elim hres
  rw [lookupD_eq_scan] at hf
  obtain ⟨hkk, h2, i2, hgi⟩ := scanLookup_found hf
  have hh2 : h2 = hash k := hok i k v h2 i2 hgi
  have honly : ∀ x k0 v0 hh0 i0,
      d.table.get? x = some (Bucket.entry k0 v0 hh0 i0) → k0 = k → x = i :=
    fun x k0 v0 hh0 i0 hx hk0 =>
      huniq x i k0 v0 hh0 i0 k v h2 i2 hx hk0 hgi rfl
  obtain ⟨hsplit, _⟩ := get?_split hgi
  have hfree1 := take_keyfree hgi honly
  have hfree2 := drop_keyfree hgi honly
  rw [hsplit] at hri
  obtain ⟨⟨j, f2, hj⟩, huniq2⟩ :=
    reinsertAll_with_key hri hfree1 hfree2 keyAbsent_replicate
  refine ⟨?_, ?_, huniq2, j, f2, ?_⟩
  · rw [reinsertAll_length hri, List.length_replicate, hcap]
  · exact reinsertAll_hashesOK hri (by rw [← hsplit]; exact hok) hashesOK_replicate
  · rw [lookupD_eq_scan, hcap]
    rw [hh2] at hj
    exact hj

/-- Immediately after `insert(k, v)`, a lookup of `k` terminates and
returns `v`. -/
theorem insert_finds {hash : K → Nat} {d d2 : Dict K V} {k : K} {v : V}
    (hI : InsertR hash d k v d2) :
    ∃ i, LookupR hash d2 k (some (k, v, i)) := by
  obtain ⟨f, hf⟩ := hI
  obtain ⟨dmid, t, _, hfi, hd2⟩ := insertF_elim hf
  rw [forceInsertD_eq_scan] at hfi
  obtain ⟨j, hj⟩ := scanLookup_after_place hfi
  refine ⟨j, f, ?_⟩
  rw [lookupD_eq_scan, hd2]
  exact hj

theorem goodKey_transfer_size {hash : K → Nat} {k : K} {v : V} {c s s2 : Nat}
    {t : List (Bucket K V)} (hg : GoodKey hash k v ⟨c, s, t⟩) :
    GoodKey hash k v ⟨c, s2, t⟩ := by
  obtain ⟨hlen, hok, huniq, i, f, hf⟩ := hg
  rw [lookupD_eq_scan] at hf
  refine ⟨hlen, hok, huniq, i, f, ?_⟩
  rw [lookupD_eq_scan]
  exact hf

theorem goodKey_insert_other {hash : K → Nat} {k : K} {v : V} {k2 : K} {v2 : V}
    {d d2 : Dict K V} (hne : k2 ≠ k) (hg : GoodKey hash k v d)
    (hI : InsertR hash d k2 v2 d2) : GoodKey hash k v d2 := by
  obtain ⟨f, hf⟩ := hI
  obtain ⟨dmid, t, hmid, hfi, hd2⟩ := insertF_elim hf
  have hgbump : GoodKey hash k v ⟨d.capacity, d.size + 1, d.table⟩ := by
    obtain ⟨c, s, t⟩ := d
    exact goodKey_transfer_size hg
  have hgmid : GoodKey hash k v dmid := by
    rcases hmid with ⟨_, rfl⟩ | ⟨_, hrs⟩
    · exact hgbump
    · exact goodKey_resize hgbump hrs
  rw [forceInsertD_eq_scan] at hfi
  obtain ⟨hlen, hok, huniq, i, f0, hf0⟩ := hgmid
  rw [lookupD_eq_scan] at hf0
  refine ⟨?_, ?_, ?_, i, f0, ?_⟩
  · rw [hd2]
    exact (length_place hfi).trans hlen
  · rw [hd2]
    exact hashesOK_place hok rfl hfi
  · rw [hd2]
    exact keyUnique_place_other hne huniq hfi
  · rw [hd2, lookupD_eq_scan]
    exact scanLookup_pres_place hne hfi hf0

theorem goodKey_remove_other {hash : K → Nat} {k : K} {v : V} {k2 : K}
    {d : Dict K V} {out : Option (K × V)} {d2 : Dict K V} (hne : k2 ≠ k)
    (hg : GoodKey hash k v d) (hR : RemoveR hash d k2 out d2) :
    GoodKey hash k v d2 := by
  obtain ⟨f, hf⟩ := hR
  obtain ⟨res, d1, hlk, hcase, hshrink⟩ := removeF_elim hf
  have hgd1 : GoodKey hash k v d1 := by
    rcases hcase with ⟨_, _, rfl⟩ | ⟨k0, v0, idx, hres0, _, rfl⟩
    · exact hg
    · subst hres0
      rw [lookupD_eq_scan] at hlk
      obtain ⟨hk0, h2, i2, hgi⟩ := scanLookup_found hlk
      obtain ⟨hlen, hok, huniq, i, f0, hf0⟩ := hg
      rw [lookupD_eq_scan] at hf0
      have hKey : ∀ ka va ha ia,
          d.table.get? idx = some (Bucket.entry ka va ha ia) → ka ≠ k := by
        intro ka va ha ia hx
        rw [hgi] at hx
        have := Option.some_injective _ hx
        cases this
        rw [hk0]
        exact hne
      refine ⟨by simpa using hlen, hashesOK_set (by intro _ _ _ _ hb; cases hb) hok,
        keyUnique_set (by intro _ _ _ _ hb; cases hb) huniq, i, f0, ?_⟩
      rw [lookupD_eq_scan]
      exact scanLookup_pres_set (Or.inr rfl) hKey hf0
  rcases hshrink with ⟨_, rfl⟩ | ⟨_, hrs⟩
  · exact hgd1
  · exact goodKey_resize hgd1 hrs

theorem goodKey_otherOps {hash : K → Nat} {k : K} {v : V} {d d2 : Dict K V}
    (hg : GoodKey hash k v d) (hops : OtherOps hash k d d2) :
    GoodKey hash k v d2 := by
  induction hops with
  | refl d => exact hg
  | insert hne h1 h2 ih => exact ih (goodKey_insert_other hne hg h1)
  | remove hne h1 h2 ih => exact ih (goodKey_remove_other hne hg h1)

/-! ### Tombstone-freedom and any-value retrievability -/

theorem noTombs_set {table : List (Bucket K V)} {N : Nat} {b2 : Bucket K V}
    (hb2 : b2 ≠ Bucket.tombstone) (hnt : NoTombs table) :
    NoTombs (table.set N b2) := by
  intro x hx
  rcases get?_set_elim hx with ⟨rfl, hb⟩ | ⟨_, hx2⟩
  · exact hb2 hb.symm
  · exact hnt x hx2

theorem noTombs_place {table : List (Bucket K V)} {cap : Nat} {key : K}
    {value : V} {keyHash fuel n : Nat} {t2 : List (Bucket K V)}
    (hnt : NoTombs table)
    (hres : scanPlace table cap key value keyHash fuel n = some t2) :
    NoTombs t2 := by
  obtain ⟨m, _, _, _, hout⟩ := scanPlace_char hres
  obtain ⟨h2, ht2, _⟩ := placeOutcome_elim hout
  subst ht2
  exact noTombs_set (by intro hb; cases hb) hnt

theorem noTombs_replicate {n : Nat} :
    NoTombs (List.replicate n (Bucket.empty : Bucket K V)) := by
  intro x hx
  exact Bucket.noConfusion (replicate_get?_elim hx)

theorem reinsertAll_noTombs {cap fuel : Nat} :
    ∀ {l acc t2 : List (Bucket K V)}, reinsertAll cap fuel l acc = some t2 →
    NoTombs acc → NoTombs t2 := by
  intro l
  induction l with
  | nil => intro acc t2 h hacc; cases h; exact hacc
  | cons b rest ih =>
    intro acc t2 h hacc
    cases b with
    | entry k v hh i =>
      rw [reinsertAll_cons_entry] at h
      cases hfi : forceInsertD acc cap k v hh fuel with
      | none => rw [hfi] at h; cases h
      | some acc2 =>
        rw [hfi] at h
        rw [forceInsertD_eq_scan] at hfi
        exact ih h (noTombs_place hacc hfi)
    | empty => exact ih h hacc
    | tombstone => exact ih h hacc

/-- Any key occurring (with its true hash cached) among the reinserted
buckets, or already findable in the accumulator, is findable afterwards,
with some value. -/
theorem reinsertAll_retrievable {cap fuel : Nat} {key : K} {hK : Nat} :
    ∀ {l acc t2 : List (Bucket K V)}, reinsertAll cap fuel l acc = some t2 →
    (∀ x k0 v0 h0 i0, l.get? x = some (Bucket.entry k0 v0 h0 i0) → k0 = key →
      h0 = hK) →
    ((∃ x v h0 i0, l.get? x = some (Bucket.entry key v h0 i0)) ∨
      (∃ v i f0, scanLookup acc cap key hK f0 0 = some (some (key, v, i)))) →
    ∃ v i f2, scanLookup t2 cap key hK f2 0 = some (some (key, v, i)) := by
  intro l
  induction l with
  | nil =>
    intro acc t2 h _ hbase
    cases h
    rcases hbase with ⟨x, v, h0, i0, hx⟩ | hok
    · cases hx
    · exact hok
  | cons b rest ih =>
    intro acc t2 h hlh hbase
    have hlh2 : ∀ x k0 v0 h0 i0, rest.get? x = some (Bucket.entry k0 v0 h0 i0) →
        k0 = key → h0 = hK := fun x k0 v0 h0 i0 hx => hlh (x + 1) k0 v0 h0 i0 hx
    cases b with
    | entry k0 v0 h0 i0 =>
      rw [reinsertAll_cons_entry] at h
      cases hfi : forceInsertD acc cap k0 v0 h0 fuel with
      | none => rw [hfi] at h; cases h
      | some acc2 =>
        rw [hfi] at h
        rw [forceInsertD_eq_scan] at hfi
        refine ih h hlh2 ?_
        by_cases hk0 : k0 = key
        · subst hk0
          have hh0 : h0 = hK := hlh 0 k0 v0 h0 i0 rfl rfl
          subst hh0
          obtain ⟨j, hj⟩ := scanLookup_after_place hfi
          exact Or.inr ⟨v0, j, _, hj⟩
        · rcases hbase with ⟨x, v, hh, ii, hx⟩ | ⟨v, i, f0, hf0⟩
          · cases x with
            | zero =>
              have := Option.some_injective _ hx
              cases this
              exact absurd rfl hk0
            | succ x2 => exact Or.inl ⟨x2, v, hh, ii, hx⟩
          · exact Or.inr ⟨v, i, f0, scanLookup_pres_place hk0 hfi hf0⟩
    | empty =>
      refine ih h hlh2 ?_
      rcases hbase with ⟨x, v, hh, ii, hx⟩ | hok
      · cases x with
        | zero => cases hx
        | succ x2 => exact Or.inl ⟨x2, v, hh, ii, hx⟩
      · exact Or.inr hok
    | tombstone =>
      refine ih h hlh2 ?_
      rcases hbase with ⟨x, v, hh, ii, hx⟩ | hok
      · cases x with
        | zero => cases hx
        | succ x2 => exact Or.inl ⟨x2, v, hh, ii, hx⟩
      · exact Or.inr hok

theorem resize_retrievable {hash : K → Nat} {d : Dict K V} {newCap fuel : Nat}
    {d2 : Dict K V} {k : K} (hok : HashesOK hash d.table)
    (hres : resizeF d newCap fuel = some d2)
    (hpresent : ∃ x v h0 i0, d.table.get? x = some (Bucket.entry k v h0 i0)) :
    ∃ v2 i2, LookupR hash d2 k (some (k, v2, i2)) := by
  obtain ⟨hri, hcap, _⟩ := resizeF_elim hres
  have hlh : ∀ x k0 v0 h0 i0,
      d.table.get? x = some (Bucket.entry k0 v0 h0 i0) → k0 = k →
      h0 = hash k := by
    intro x k0 v0 h0 i0 hx hk0
    subst hk0
    exact hok x k0 v0 h0 i0 hx
  obtain ⟨v2, i2, f2, hf2⟩ :=
    reinsertAll_retrievable hri hlh (Or.inl hpresent)
  refine ⟨v2, i2, f2, ?_⟩
  rw [lookupD_eq_scan, hcap]
  exact hf2

/-- `insert` keeps the table length equal to the capacity and keeps cached
hashes truthful. -/
theorem insert_wf {hash : K → Nat} {d d2 : Dict K V} {k : K} {v : V}
    (hI : InsertR hash d k v d2) (hlen : d.table.length = d.capacity)
    (hok : HashesOK hash d.table) :
    d2.table.length = d2.capacity ∧ HashesOK hash d2.table := by
  obtain ⟨f, hf⟩ := hI
  obtain ⟨dmid, t, hmid, hfi, hd2⟩ := insertF_elim hf
  have hmidwf : dmid.table.length = dmid.capacity ∧ HashesOK hash dmid.table := by
    rcases hmid with ⟨_, rfl⟩ | ⟨_, hrs⟩
    · exact ⟨hlen, hok⟩
    · obtain ⟨hri, hcap, _⟩ := resizeF_elim hrs
      exact ⟨by rw [reinsertAll_length hri, List.length_replicate, hcap],
        reinsertAll_hashesOK hri hok hashesOK_replicate⟩
  rw [forceInsertD_eq_scan] at hfi
  subst hd2
  exact ⟨(length_place hfi).trans hmidwf.1, hashesOK_place hmidwf.2 rfl hfi⟩

theorem getD_of_found {hash : K → Nat} {d : Dict K V} {key : K} {k : K} {v : V}
    {i : Nat} (h : LookupR hash d key (some (k, v, i))) :
    ∃ fuel, getD hash d key fuel = some (Except.ok v) := by
  obtain ⟨f, hf⟩ := h
  exact ⟨f, by rw [getD, hf]⟩

theorem getD_of_missing {hash : K → Nat} {d : Dict K V} {key : K}
    (h : LookupR hash d key none) :
    ∃ fuel, getD hash d key fuel = some (Except.error "Key does not exist") := by
  obtain ⟨f, hf⟩ := h
  exact ⟨f, by rw [getD, hf]⟩

theorem containsD_of_missing {hash : K → Nat} {d : Dict K V} {key : K}
    (h : LookupR hash d key none) :
    ∃ fuel, containsD hash d key fuel = some false := by
  obtain ⟨f, hf⟩ := h
  exact ⟨f, by rw [containsD, hf]; rfl⟩

/-! ### The degenerate probe recurrence `x ↦ 5x+1` covers every residue
modulo a power of two -/

theorem lcgN_eq (n x : Nat) : lcgN n x = 5 ^ n * x + cN n := by
  induction n with
  | zero => simp [lcgN, cN]
  | succ n ih => rw [lcgN, cN, ih, Nat.pow_succ]; ring

theorem pow5_eq (n : Nat) : 5 ^ n = 4 * cN n + 1 := by
  induction n with
  | zero => simp [cN]
  | succ n ih => rw [cN, Nat.pow_succ, ih]; ring

theorem lcgN_shift (n y : Nat) : lcgN n y = y + cN n * (4 * y + 1) := by
  rw [lcgN_eq, pow5_eq]; ring

theorem lcgN_add (a b x : Nat) : lcgN (a + b) x = lcgN b (lcgN a x) := by
  induction b with
  | zero => rfl
  | succ b ih => rw [← Nat.add_assoc, lcgN, lcgN, ih]

theorem cN_add (a b : Nat) : cN (a + b) = 5 ^ b * cN a + cN b := by
  have h1 : cN (a + b) = lcgN (a + b) 0 := by rw [lcgN_eq]; ring
  have h2 : lcgN a 0 = cN a := by rw [lcgN_eq]; ring
  rw [h1, lcgN_add, h2, lcgN_eq]

theorem cN_pow2_odd : ∀ e : Nat, ∃ m, cN (2 ^ e) = 2 ^ e * (2 * m + 1) := by
  intro e
  induction e with
  | zero => exact ⟨0, rfl⟩
  | succ e ih =>
    obtain ⟨m, hm⟩ := ih
    refine ⟨(2 * m + 1) * cN (2 ^ e) + m, ?_⟩
    have h2 : (2 : Nat) ^ (e + 1) = 2 ^ e + 2 ^ e := by rw [Nat.pow_succ]; ring
    rw [h2, cN_add, pow5_eq]
    calc (4 * cN (2 ^ e) + 1) * cN (2 ^ e) + cN (2 ^ e) =
        cN (2 ^ e) * (4 * cN (2 ^ e) + 2) := by ring
    _ = 2 ^ e * (2 * m + 1) * (4 * cN (2 ^ e) + 2) := by rw [hm]
    _ = (2 ^ e + 2 ^ e) * (2 * ((2 * m + 1) * cN (2 ^ e) + m) + 1) := by ring

theorem lcgM_eq_mod {cap : Nat} : ∀ (n : Nat) {x : Nat}, x < cap →
    lcgM cap n x = lcgN n x % cap := by
  intro n
  induction n with
  | zero => intro x hx; exact (Nat.mod_eq_of_lt hx).symm
  | succ n ih =>
    intro x hx
    rw [lcgM, lcgN, ih hx]
    exact ((Nat.mod_modEq (lcgN n x) cap).mul_left 5).add_right 1

theorem lcgM_add (cap a b x : Nat) : lcgM cap (a + b) x = lcgM cap b (lcgM cap a x) := by
  induction b with
  | zero => rfl
  | succ b ih => rw [← Nat.add_assoc, lcgM, lcgM, ih]

theorem lcgM_lt {cap : Nat} (hc : 0 < cap) {x : Nat} (hx : x < cap) :
    ∀ n, lcgM cap n x < cap := by
  intro n
  cases n with
  | zero => exact hx
  | succ n => exact Nat.mod_lt _ hc

theorem lcg_step_pow2 (e : Nat) {y : Nat} (hy : y < 2 ^ (e + 1)) :
    lcgM (2 ^ (e + 1)) (2 ^ e) y = (y + 2 ^ e) % 2 ^ (e + 1) := by
  rw [lcgM_eq_mod _ hy, lcgN_shift]
  obtain ⟨m, hm⟩ := cN_pow2_odd e
  have hval : y + cN (2 ^ e) * (4 * y + 1) =
      y + 2 ^ e + 2 ^ (e + 1) * (4 * m * y + m + 2 * y) := by
    rw [hm, Nat.pow_succ]
    ring
  rw [hval, Nat.add_mul_mod_self_left]

theorem lcg_cover : ∀ (e x s : Nat), x < 2 ^ e → s < 2 ^ e →
    ∃ n, lcgM (2 ^ e) n x = s := by
  intro e
  induction e with
  | zero =>
    intro x s hx hs
    interval_cases x
    interval_cases s
    exact ⟨0, rfl⟩
  | succ e ih =>
    intro x s hx hs
    have hproj : ∀ n, lcgM (2 ^ e) n (x % 2 ^ e) = lcgM (2 ^ (e + 1)) n x % 2 ^ e := by
      intro n
      have h1 : lcgM (2 ^ e) n (x % 2 ^ e) = lcgN n (x % 2 ^ e) % 2 ^ e :=
        lcgM_eq_mod n (Nat.mod_lt _ (Nat.pos_pow_of_pos e (by norm_num)))
      have h2 : lcgN n (x % 2 ^ e) % 2 ^ e = lcgN n x % 2 ^ e := by
        rw [lcgN_eq, lcgN_eq]
        exact ((Nat.mod_modEq x (2 ^ e)).mul_left (5 ^ n)).add_right (cN n)
      have h3 : lcgM (2 ^ (e + 1)) n x = lcgN n x % 2 ^ (e + 1) := lcgM_eq_mod n hx
      rw [h1, h2, h3, Nat.mod_mod_of_dvd]
      exact ⟨2, by rw [Nat.pow_succ]⟩
    have hcap : (0 : Nat) < 2 ^ (e + 1) := Nat.pos_pow_of_pos _ (by norm_num)
    obtain ⟨n, hn⟩ := ih (x % 2 ^ e) (s % 2 ^ e)
      (Nat.mod_lt _ (Nat.pos_pow_of_pos e (by norm_num)))
      (Nat.mod_lt _ (Nat.pos_pow_of_pos e (by norm_num)))
    set y := lcgM (2 ^ (e + 1)) n x with hy
    have hylt : y < 2 ^ (e + 1) := lcgM_lt hcap hx n
    have hymod : y % 2 ^ e = s % 2 ^ e := by rw [← hproj n, hn]
    have hsplit : y = s ∨ y + 2 ^ e = s ∨ s + 2 ^ e = y := by
      have hy2 : 2 ^ e * (y / 2 ^ e) + y % 2 ^ e = y := Nat.div_add_mod y (2 ^ e)
      have hs2 : 2 ^ e * (s / 2 ^ e) + s % 2 ^ e = s := Nat.div_add_mod s (2 ^ e)
      have hyq : y / 2 ^ e < 2 := by
        rw [Nat.div_lt_iff_lt_mul (Nat.pos_pow_of_pos e (by norm_num))]
        rw [Nat.pow_succ] at hylt
        omega
      have hsq : s / 2 ^ e < 2 := by
        rw [Nat.div_lt_iff_lt_mul (Nat.pos_pow_of_pos e (by norm_num))]
        rw [Nat.pow_succ] at hs
        omega
      have hyq2 : y / 2 ^ e = 0 ∨ y / 2 ^ e = 1 := by
        rcases Nat.lt_or_ge (y / 2 ^ e) 1 with hq | hq
        · exact Or.inl (Nat.lt_one_iff.mp hq)
        · exact Or.inr (Nat.le_antisymm (Nat.lt_succ_iff.mp hyq) hq)
      have hsq2 : s / 2 ^ e = 0 ∨ s / 2 ^ e = 1 := by
        rcases Nat.lt_or_ge (s / 2 ^ e) 1 with hq | hq
        · exact Or.inl (Nat.lt_one_iff.mp hq)
        · exact Or.inr (Nat.le_antisymm (Nat.lt_succ_iff.mp hsq) hq)
      rcases hyq2 with hq | hq <;> rcases hsq2 with hq2 | hq2 <;>
        rw [hq] at hy2 <;> rw [hq2] at hs2 <;>
        simp only [Nat.mul_zero, Nat.mul_one, Nat.zero_add] at hy2 hs2 <;>
        omega
    rcases hsplit with he | he | he
    · exact ⟨n, he⟩
    · refine ⟨n + 2 ^ e, ?_⟩
      rw [lcgM_add, ← hy, lcg_step_pow2 e hylt, he]
      exact Nat.mod_eq_of_lt hs
    · refine ⟨n + 2 ^ e, ?_⟩
      rw [lcgM_add, ← hy, lcg_step_pow2 e hylt, ← he]
      have h2 : s + 2 ^ e + 2 ^ e = s + 2 ^ (e + 1) := by rw [Nat.pow_succ]; ring
      rw [h2, Nat.add_mod_right]
      exact Nat.mod_eq_of_lt hs

/-! ### Probe exhaustiveness over power-of-two capacities -/

theorem probe_tail_lcg {cap h n : Nat} (hz : (probeSt cap h n).2 = 0) :
    ∀ m, (probeSt cap h (n + m)).1 = lcgM cap m (probeSt cap h n).1 ∧
      (probeSt cap h (n + m)).2 = 0 := by
  intro m
  induction m with
  | zero => exact ⟨rfl, hz⟩
  | succ m ih =>
    obtain ⟨ih1, ih2⟩ := ih
    constructor
    · rw [← Nat.add_assoc, probeSt_succ, ih1, ih2, lcgM]
    · rw [← Nat.add_assoc, probeSt_succ, ih2]

theorem perturb_dies (cap h : Nat) : (probeSt cap h h).2 = 0 := by
  rw [probeSt_snd]
  rcases Nat.eq_zero_or_pos h with rfl | hp
  · rfl
  · exact Nat.div_eq_of_lt (Nat.lt_pow_self (by norm_num) h)

/-- Over a power-of-two capacity, the probe sequence from any hash visits
every slot. -/
theorem probe_covers_pow2 (e h s : Nat) (hs : s < 2 ^ e) :
    ∃ n, (probeSt (2 ^ e) h n).1 = s := by
  have hcap : (0 : Nat) < 2 ^ e := Nat.pos_pow_of_pos _ (by norm_num)
  have hi0 : (probeSt (2 ^ e) h h).1 < 2 ^ e := probeSt_fst_lt _ _ hcap _
  obtain ⟨m, hm⟩ := lcg_cover e _ s hi0 hs
  exact ⟨h + m, by rw [(probe_tail_lcg (perturb_dies _ h) m).1, hm]⟩

/-- If the table has a power-of-two length and at least one empty slot,
every lookup terminates. -/
theorem lookup_term {table : List (Bucket K V)} {e : Nat} (key : K) (h : Nat)
    (hlen : table.length = 2 ^ e)
    (hemp : ∃ j, table.get? j = some Bucket.empty) :
    ∃ fuel r, scanLookup table (2 ^ e) key h fuel 0 = some r := by
  have hex : ∃ n, stopB table key ((probeSt (2 ^ e) h n).1) = true := by
    obtain ⟨j, hj⟩ := hemp
    have hjlt : j < 2 ^ e := hlen ▸ get?_some_lt hj
    obtain ⟨n, hn⟩ := probe_covers_pow2 e h j hjlt
    exact ⟨n, by rw [stopB, hn, hj]⟩
  have hN : stopB table key ((probeSt (2 ^ e) h (Nat.find hex)).1) = true :=
    Nat.find_spec hex
  have hmin : ∀ j, j < Nat.find hex →
      ¬ stopB table key ((probeSt (2 ^ e) h j).1) = true :=
    fun j hj => Nat.find_min hex hj
  have hsome : ∀ m, ∃ b, table.get? ((probeSt (2 ^ e) h m).1) = some b := by
    intro m
    have hlt : (probeSt (2 ^ e) h m).1 < table.length := by
      rw [hlen]
      exact probeSt_fst_lt _ _ (Nat.pos_pow_of_pos _ (by norm_num)) _
    rw [List.get?_eq_get hlt]
    exact ⟨_, rfl⟩
  have hpre : ∀ j, 0 ≤ j → j < Nat.find hex →
      isAdvance key table ((probeSt (2 ^ e) h j).1) := by
    intro j _ hj
    have hfalse : ¬ stopB table key ((probeSt (2 ^ e) h j).1) = true := hmin j hj
    obtain ⟨b, hb⟩ := hsome j
    cases b with
    | entry k v hh i =>
      refine Or.inl ⟨k, v, hh, i, hb, ?_⟩
      intro hk
      apply hfalse
      rw [stopB, hb, hk]
      simp
    | empty =>
      exact absurd (by rw [stopB, hb]) hfalse
    | tombstone => exact Or.inr hb
  obtain ⟨b, hb⟩ := hsome (Nat.find hex)
  have hstop : ∃ r, stopsAt table key ((probeSt (2 ^ e) h (Nat.find hex)).1) r := by
    cases b with
    | entry k v hh i =>
      have hk : k = key := by
        have := hN
        rw [stopB, hb] at this
        simpa using this
      exact ⟨some (k, v, (probeSt (2 ^ e) h (Nat.find hex)).1),
        Or.inl ⟨k, v, hh, i, hb, hk, rfl⟩⟩
    | empty => exact ⟨none, Or.inr ⟨hb, rfl⟩⟩
    | tombstone =>
      have := hN
      rw [stopB, hb] at this
      cases this
  obtain ⟨r, hr⟩ := hstop
  exact ⟨Nat.find hex + 1, r, scanLookup_of_walk (by omega) hpre hr⟩

/-! ### Decidable bridges for concrete instances -/

theorem countP_two {p : Bucket K V → Bool} :
    ∀ {l : List (Bucket K V)} {x y : Nat} {bx by2 : Bucket K V}, x < y →
    l.get? x = some bx → l.get? y = some by2 → p bx = true → p by2 = true →
    2 ≤ l.countP p := by
  intro l
  induction l with
  | nil => intro x y bx by2 _ hx _ _ _; cases hx
  | cons b rest ih =>
    intro x y bx by2 hxy hx hy hpx hpy
    obtain ⟨y2, rfl⟩ : ∃ y2, y = y2 + 1 := ⟨y - 1, by omega⟩
    have hy2 : rest.get? y2 = some by2 := hy
    cases x with
    | zero =>
      have hbx : b = bx := Option.some_injective _ hx
      have hpos : 0 < rest.countP p :=
        List.countP_pos.mpr ⟨by2, List.get?_mem hy2, hpy⟩
      have hcons := List.countP_cons p bx rest
      rw [hbx, hcons, hpx]
      simp only [if_true]
      omega
    | succ x2 =>
      have hx2 : rest.get? x2 = some bx := hx
      have := ih (by omega : x2 < y2) hx2 hy2 hpx hpy
      rw [List.countP_cons]
      omega

theorem keyUnique_of_countKey {key : K} {table : List (Bucket K V)}
    (h : countKey key table ≤ 1) : KeyUnique key table := by
  intro x y kx vx hx ix ky vy hy iy hgx hkx hgy hky
  by_contra hne
  have hpx : (fun b => match b with
      | Bucket.entry k _ _ _ => decide (k = key)
      | _ => false) (Bucket.entry kx vx hx ix) = true := by simp [hkx]
  have hpy : (fun b => match b with
      | Bucket.entry k _ _ _ => decide (k = key)
      | _ => false) (Bucket.entry ky vy hy iy) = true := by simp [hky]
  rcases Nat.lt_or_ge x y with hlt | hge
  · have := countP_two (p := fun b => match b with
      | Bucket.entry k _ _ _ => decide (k = key)
      | _ => false) hlt hgx hgy hpx hpy
    rw [countKey] at h
    omega
  · have hlt : y < x := by omega
    have := countP_two (p := fun b => match b with
      | Bucket.entry k _ _ _ => decide (k = key)
      | _ => false) hlt hgy hgx hpy hpx
    rw [countKey] at h
    omega

theorem hashesOK_of_B {hash : K → Nat} {table : List (Bucket K V)}
    (h : hashesOKB hash table = true) : HashesOK hash table := by
  intro x k v h0 i hx
  have hm := List.get?_mem hx
  have := List.all_eq_true.mp h _ hm
  simpa using this

/-! ### Insert-only invariant -/

theorem place_findable_overwrite {table : List (Bucket K V)} {cap : Nat}
    {k : K} {value : V} {hK fuel f : Nat} {t2 : List (Bucket K V)} {v2 : V}
    {i2 : Nat} (hnt : NoTombs table)
    (hfind : scanLookup table cap k hK f 0 = some (some (k, v2, i2)))
    (hpl : scanPlace table cap k value hK fuel 0 = some t2) :
    ∃ h2 i3, table.get? i2 = some (Bucket.entry k v2 h2 i3) ∧
      t2 = table.set i2 (Bucket.entry k value h2 i2) := by
  obtain ⟨mL, _, _, hpreL, hstopL⟩ := scanLookup_char hfind
  obtain ⟨mP, _, _, hpreP, houtP⟩ := scanPlace_char hpl
  rcases hstopL with ⟨k0, v0, h0, i0, heqL, hk0, hrL⟩ | ⟨_, hrL⟩
  swap
  · cases hrL
  obtain ⟨rfl, rfl, hi2⟩ : k0 = k ∧ v0 = v2 ∧ (probeSt cap hK mL).1 = i2 := by
    have h3 := Option.some_injective _ hrL
    exact ⟨(congrArg (fun q => q.1) h3).symm, (congrArg (fun q => q.2.1) h3).symm,
      (congrArg (fun q => q.2.2) h3).symm⟩
  rcases Nat.lt_trichotomy mL mP with hlt | heq | hgt
  · obtain ⟨k1, v1, h1, i1, heq1, hk1⟩ := hpreP mL (by omega) hlt
    rw [heqL] at heq1
    have := Option.some_injective _ heq1
    cases this
    exact absurd hk0 hk1
  · subst heq
    rw [hi2] at houtP heqL
    rcases houtP with ⟨k3, v3, hh3, ii3, heq3, hk3, ht⟩ | ⟨hcase, ht⟩
    · rw [heqL] at heq3
      have h4 := Option.some_injective _ heq3
      cases h4
      exact ⟨h0, i0, heqL, ht⟩
    · rcases hcase with hcase | hcase <;> rw [heqL] at hcase <;> cases hcase
  · have hadv := hpreL mP (by omega) hgt
    rcases hadv with ⟨k1, v1, h1, i1, heq1, hk1⟩ | heq1
    · rcases houtP with ⟨k3, v3, h3, i3, heq3, hk3, _⟩ | ⟨hcase, _⟩
      · rw [heq1] at heq3
        have := Option.some_injective _ heq3
        cases this
        exact absurd hk3 hk1
      · rcases hcase with hcase | hcase <;> rw [heq1] at hcase <;> cases hcase
    · exact absurd heq1 (hnt _)

theorem reinsertAll_keys {cap fuel : Nat} :
    ∀ {l acc t2 : List (Bucket K V)}, reinsertAll cap fuel l acc = some t2 →
    ∀ x k v h i, t2.get? x = some (Bucket.entry k v h i) →
    (∃ x0 v0 h0 i0, l.get? x0 = some (Bucket.entry k v0 h0 i0)) ∨
      (∃ x0 v0 h0 i0, acc.get? x0 = some (Bucket.entry k v0 h0 i0)) := by
  intro l
  induction l with
  | nil =>
    intro acc t2 h x k v hh i hx
    cases h
    exact Or.inr ⟨x, v, hh, i, hx⟩
  | cons b rest ih =>
    intro acc t2 h x k v hh i hx
    cases b with
    | entry k0 v0 h0 i0 =>
      rw [reinsertAll_cons_entry] at h
      cases hfi : forceInsertD acc cap k0 v0 h0 fuel with
      | none => rw [hfi] at h; cases h
      | some acc2 =>
        rw [hfi] at h
        rcases ih h x k v hh i hx with ⟨x0, v1, h1, i1, hx0⟩ | hin
        · exact Or.inl ⟨x0 + 1, v1, h1, i1, hx0⟩
        · rw [forceInsertD_eq_scan] at hfi
          obtain ⟨m, _, _, _, hout⟩ := scanPlace_char hfi
          obtain ⟨h2, ht2, _⟩ := placeOutcome_elim hout
          subst ht2
          obtain ⟨x0, v1, h1, i1, hx0⟩ := hin
          rcases get?_set_elim hx0 with ⟨rfl, hb⟩ | ⟨_, hx1⟩
          · cases hb
            exact Or.inl ⟨0, v0, h0, i0, rfl⟩
          · exact Or.inr ⟨x0, v1, h1, i1, hx1⟩
    | empty =>
      rcases ih h x k v hh i hx with ⟨x0, v1, h1, i1, hx0⟩ | hin
      · exact Or.inl ⟨x0 + 1, v1, h1, i1, hx0⟩
      · exact Or.inr hin
    | tombstone =>
      rcases ih h x k v hh i hx with ⟨x0, v1, h1, i1, hx0⟩ | hin
      · exact Or.inl ⟨x0 + 1, v1, h1, i1, hx0⟩
      · exact Or.inr hin

theorem keyUnique_of_absent {key : K} {table : List (Bucket K V)}
    (h : KeyAbsent key table) : KeyUnique key table := by
  intro x y kx vx hx ix ky vy hy iy hgx hkx _ _
  exact absurd hkx (h x kx vx hx ix hgx)

theorem insOK_resize {hash : K → Nat} {d : Dict K V} {newCap fuel : Nat}
    {d2 : Dict K V} (hins : InsOK hash d) (hres : resizeF d newCap fuel = some d2) :
    InsOK hash d2 := by
  obtain ⟨hlen, hok, hnt, huniq, hfind⟩ := hins
  obtain ⟨hri, hcap, _⟩ := resizeF_elim hres
  have hlen2 : d2.table.length = d2.capacity := by
    rw [reinsertAll_length hri, List.length_replicate, hcap]
  have hok2 : HashesOK hash d2.table :=
    reinsertAll_hashesOK hri hok hashesOK_replicate
  have hnt2 : NoTombs d2.table := reinsertAll_noTombs hri noTombs_replicate
  have main : ∀ key, (∃ x v h i, d.table.get? x = some (Bucket.entry key v h i)) →
      (∃ v2 i2 f2, scanLookup d2.table newCap key (hash key) f2 0 =
          some (some (key, v2, i2))) ∧ KeyUnique key d2.table := by
    intro key ⟨x, v, h0, i0, hx⟩
    have hh0 : h0 = hash key := hok x key v h0 i0 hx
    have honly : ∀ y k0 v0 hh i2,
        d.table.get? y = some (Bucket.entry k0 v0 hh i2) → k0 = key → y = x :=
      fun y k0 v0 hh i2 hy hk0 =>
        huniq key y x k0 v0 hh i2 key v h0 i0 hy hk0 hx rfl
    obtain ⟨hsplit, _⟩ := get?_split hx
    have hfree1 := take_keyfree hx honly
    have hfree2 := drop_keyfree hx honly
    rw [hsplit] at hri
    obtain ⟨⟨j, f2, hj⟩, huniq2⟩ :=
      reinsertAll_with_key hri hfree1 hfree2 keyAbsent_replicate
    rw [hh0] at hj
    exact ⟨⟨v, j, f2, hj⟩, huniq2⟩
  refine ⟨hlen2, hok2, hnt2, ?_, ?_⟩
  · intro key
    by_cases hpres : ∃ x v h i, d.table.get? x = some (Bucket.entry key v h i)
    · exact (main key hpres).2
    · refine keyUnique_of_absent (reinsertAll_absent hri ?_ keyAbsent_replicate)
      intro x k0 v0 h0 i0 hx hk0
      exact hpres ⟨x, v0, h0, i0, hk0 ▸ hx⟩
  · intro x k v h0 i0 hx
    have hk : (∃ x0 v0 h1 i1, d.table.get? x0 = some (Bucket.entry k v0 h1 i1)) := by
      rcases reinsertAll_keys hri x k v h0 i0 hx with hin | ⟨x0, v0, h1, i1, hx0⟩
      · exact hin
      · exact absurd (replicate_get?_elim hx0) (by intro hb; cases hb)
    obtain ⟨⟨v2, i2, f2, hf2⟩, _⟩ := main k hk
    have hcap2 : d2.capacity = newCap := hcap
    rw [hcap2]
    exact ⟨v2, i2, f2, hf2⟩

theorem insOK_empty_table {hash : K → Nat} {n : Nat} :
    InsOK hash (⟨n, 0, List.replicate n Bucket.empty⟩ : Dict K V) := by
  refine ⟨List.length_replicate n _, hashesOK_replicate,
    noTombs_replicate, fun key => keyUnique_of_absent keyAbsent_replicate, ?_⟩
  intro x k v h i hx
  exact absurd (replicate_get?_elim hx) (by intro hb; cases hb)

theorem insOK_new {hash : K → Nat} : InsOK hash (Dict.new : Dict K V) :=
  insOK_empty_table

theorem insOK_withCap {hash : K → Nat} {n : Nat} {d : Dict K V}
    (h : withCapacity n = some d) : InsOK hash d := by
  rw [withCapacity] at h
  by_cases hn : n = 0
  · rw [if_pos hn] at h; cases h
  · rw [if_neg hn] at h
    have := (Option.some_injective _ h).symm
    subst this
    exact insOK_empty_table

theorem insOK_transfer {hash : K → Nat} {c s s2 : Nat} {t : List (Bucket K V)}
    (h : InsOK hash (⟨c, s, t⟩ : Dict K V)) : InsOK hash (⟨c, s2, t⟩ : Dict K V) := h

theorem insOK_insert {hash : K → Nat} {d d2 : Dict K V} {k : K} {v : V}
    (hins : InsOK hash d) (hI : InsertR hash d k v d2) : InsOK hash d2 := by
  obtain ⟨f, hf⟩ := hI
  obtain ⟨dmid, t, hmid, hfi, hd2⟩ := insertF_elim hf
  have hinsmid : InsOK hash dmid := by
    have hbump : InsOK hash (⟨d.capacity, d.size + 1, d.table⟩ : Dict K V) := by
      obtain ⟨c, s, tb⟩ := d
      exact insOK_transfer hins
    rcases hmid with ⟨_, rfl⟩ | ⟨_, hrs⟩
    · exact hbump
    · exact insOK_resize hbump hrs
  obtain ⟨hlen, hok, hnt, huniq, hfind⟩ := hinsmid
  rw [forceInsertD_eq_scan] at hfi
  have hlen2 : d2.table.length = d2.capacity := by
    rw [hd2]
    exact (length_place hfi).trans hlen
  have hok2 : HashesOK hash d2.table := by
    rw [hd2]
    exact hashesOK_place hok rfl hfi
  have hnt2 : NoTombs d2.table := by
    rw [hd2]
    exact noTombs_place hnt hfi
  have huniq2 : ∀ key, KeyUnique key d2.table := by
    intro key
    rw [hd2]
    by_cases hk : key = k
    · subst hk
      by_cases hpres : ∃ x v0 h0 i0,
          dmid.table.get? x = some (Bucket.entry key v0 h0 i0)
      · obtain ⟨x, v0, h0, i0, hx⟩ := hpres
        obtain ⟨v2, j, f0, hscan⟩ := hfind x key v0 h0 i0 hx
        obtain ⟨h2, i3, hslot, ht2⟩ := place_findable_overwrite hnt hscan hfi
        rw [ht2]
        intro a b ka va ha ia kb vb hb ib hga hka hgb hkb
        have ha2 : a = j := by
          rcases get?_set_elim hga with ⟨rfl, _⟩ | ⟨_, hold⟩
          · rfl
          · exact huniq key a j ka va ha ia key v2 h2 i3 hold hka hslot rfl
        have hb2 : b = j := by
          rcases get?_set_elim hgb with ⟨rfl, _⟩ | ⟨_, hold⟩
          · rfl
          · exact huniq key b j kb vb hb ib key v2 h2 i3 hold hkb hslot rfl
        rw [ha2, hb2]
      · have habs : KeyAbsent key dmid.table := by
          intro x k0 v0 h0 i0 hx hk0
          exact hpres ⟨x, v0, h0, i0, hk0 ▸ hx⟩
        obtain ⟨m, _, _, _, hout⟩ := scanPlace_char hfi
        obtain ⟨h2, ht2, hcase⟩ := placeOutcome_elim hout
        rw [ht2]
        intro a b ka va ha ia kb vb hb ib hga hka hgb hkb
        have ha2 : a = (probeSt dmid.capacity (hash key) m).1 := by
          rcases get?_set_elim hga with ⟨rfl, _⟩ | ⟨_, hold⟩
          · rfl
          · exact absurd hka (habs a ka va ha ia hold)
        have hb2 : b = (probeSt dmid.capacity (hash key) m).1 := by
          rcases get?_set_elim hgb with ⟨rfl, _⟩ | ⟨_, hold⟩
          · rfl
          · exact absurd hkb (habs b kb vb hb ib hold)
        rw [ha2, hb2]
    · exact keyUnique_place_other (fun he => hk he.symm) (huniq key) hfi
  refine ⟨hlen2, hok2, hnt2, huniq2, ?_⟩
  intro x k0 v0 h0 i0 hx
  have hcap2 : d2.capacity = dmid.capacity := by rw [hd2]
  have htab2 : d2.table = t := by rw [hd2]
  rw [hcap2, htab2]
  rw [htab2] at hx
  by_cases hk0 : k0 = k
  · subst hk0
    obtain ⟨j, hj⟩ := scanLookup_after_place hfi
    exact ⟨v, j, f, hj⟩
  · obtain ⟨m, _, _, _, hout⟩ := scanPlace_char hfi
    obtain ⟨h2, ht2, _⟩ := placeOutcome_elim hout
    have hxold : dmid.table.get? x = some (Bucket.entry k0 v0 h0 i0) := by
      rw [ht2] at hx
      rcases get?_set_elim hx with ⟨rfl, hb⟩ | ⟨_, hold⟩
      · cases hb; exact absurd rfl hk0
      · exact hold
    obtain ⟨v2, j, f0, hscan⟩ := hfind x k0 v0 h0 i0 hxold
    exact ⟨v2, j, f0,
      scanLookup_pres_place (fun he => hk0 he.symm) hfi hscan⟩

theorem insOK_reach {hash : K → Nat} {d : Dict K V} (h : InsReach hash d) :
    InsOK hash d := by
  induction h with
  | new => exact insOK_new
  | withCap hw => exact insOK_withCap hw
  | insert hd hI ih => exact insOK_insert ih hI

/-- For capacity 3 and hash 0 the probe sequence has period two, visiting
only slots 0 and 1. -/
theorem probe3_period : ∀ n, probeSt 3 0 n = (if n % 2 = 0 then 0 else 1, 0) := by
  intro n
  induction n with
  | zero => rfl
  | succ n ih =>
    by_cases hp : n % 2 = 0
    · have hp2 : (n + 1) % 2 = 1 := by omega
      rw [probeSt_succ, ih]
      simp [hp, hp2]
    · have hp2 : (n + 1) % 2 = 0 := by omega
      rw [probeSt_succ, ih]
      simp [hp, hp2]

/-! ### Claim theorems -/

/-- C1 (amended): immediately after `insert(k, v)` the call `get(k)`
returns `v`, and it still returns `v` after any further terminating
sequence of insertions and removals of keys different from `k` (growth and
shrink rehashes included), provided the starting table caches truthful
hashes and `k` occupies at most one slot right after the insert.  (The
unrestricted claim is refuted by `C1_round_trip_cex`: a tombstone on the
probe path can leave a stale duplicate of `k` that a later rehash
resurrects.) -/
theorem C1_round_trip (hash : K → Nat) (d d1 d2 : Dict K V) (k : K) (v : V)
    (hlen : d.table.length = d.capacity) (hok : HashesOK hash d.table)
    (hIns : InsertR hash d k v d1) (huniq : KeyUnique k d1.table)
    (hops : OtherOps hash k d1 d2) :
    (∃ i, LookupR hash d1 k (some (k, v, i))) ∧
      (∃ i, LookupR hash d2 k (some (k, v, i))) := by
  have himm := insert_finds hIns
  have hwf := insert_wf hIns hlen hok
  have hgood : GoodKey hash k v d1 := ⟨hwf.1, hwf.2, huniq, himm⟩
  have hgood2 := goodKey_otherOps hgood hops
  exact ⟨himm, hgood2.2.2.2⟩

/-- C1 witness: from the default table, insert key 1 with value 7, then
insert key 2 and remove key 2 (which triggers a shrink rehash); key 1
still looks up to 7. -/
theorem C1_round_trip_witness :
    (∃ i, LookupR (fun k => k)
      (⟨8, 1, [Bucket.empty, Bucket.entry 1 7 1 1, Bucket.empty, Bucket.empty,
        Bucket.empty, Bucket.empty, Bucket.empty, Bucket.empty]⟩ : Dict Nat Nat)
      1 (some (1, 7, i))) ∧
    (∃ i, LookupR (fun k => k)
      (⟨4, 1, [Bucket.empty, Bucket.entry 1 7 1 1, Bucket.empty, Bucket.empty]⟩ :
        Dict Nat Nat) 1 (some (1, 7, i))) := by
  refine C1_round_trip (fun k => k) Dict.new _ _ 1 7 (by decide)
    (hashesOK_of_B (by decide)) ⟨64, by decide⟩
    (keyUnique_of_countKey (by decide)) ?_
  refine @OtherOps.insert Nat Nat _ (fun k => k) 1 _
    (⟨8, 2, [Bucket.empty, Bucket.entry 1 7 1 1, Bucket.entry 2 3 2 2,
      Bucket.empty, Bucket.empty, Bucket.empty, Bucket.empty, Bucket.empty]⟩ :
        Dict Nat Nat) _ 2 3 (by decide) ⟨64, by decide⟩ ?_
  refine @OtherOps.remove Nat Nat _ (fun k => k) 1 _
    (⟨4, 1, [Bucket.empty, Bucket.entry 1 7 1 1, Bucket.empty, Bucket.empty]⟩ :
        Dict Nat Nat) _ 2 (some (2, 3)) (by decide) ⟨64, by decide⟩ ?_
  exact OtherOps.refl _

/-- C1 counterexample: the claim as stated fails.  From the default table:
insert 0, insert 8, insert 16, remove 0 (leaving a tombstone on the probe
path of key 8), insert 8 with value 10 — the insert claims the tombstone
and leaves a stale `(8, 1)` entry.  After `insert(8, 10)`, two further
insertions of the unrelated keys 24 and 25 (the second triggers a growth
rehash) make `get(8)` return the stale value 1 instead of 10. -/
theorem C1_round_trip_cex :
    (((((((insertF (fun k => k) (Dict.new : Dict Nat Nat) 0 0 64).bind
      fun d => insertF (fun k => k) d 8 1 64).bind
      fun d => insertF (fun k => k) d 16 2 64).bind
      fun d => (removeF (fun k => k) d 0 64).map Prod.snd).bind
      fun d => insertF (fun k => k) d 8 10 64).bind
      fun d => insertF (fun k => k) d 24 3 64).bind
      fun d => insertF (fun k => k) d 25 4 64).bind
      (fun d => getD (fun k => k) d 8 64) = some (Except.ok 1) ∧
    (1 : Nat) ≠ 10 ∧ (24 : Nat) ≠ 8 ∧ (25 : Nat) ≠ 8 := by
  refine ⟨by rfl, by decide, by decide, by decide⟩

/-- C2: after inserting `A` and then `B`, removing `A` without triggering a
shrink leaves a tombstone at the slot where `A` was found (a slot the
probe sequence of `B` may pass through), and `get(B)` still succeeds with
the inserted value; moreover the lookup loop always advances past a
tombstone slot, stopping only at an empty slot or a matching key. -/
theorem C2_tombstone (hash : K → Nat) (d d1 d2 d3 : Dict K V) (A B : K)
    (vA vB vA2 : V) (iA : Nat) (hAB : A ≠ B)
    (h1 : InsertR hash d A vA d1) (h2 : InsertR hash d1 B vB d2)
    (hA2 : LookupR hash d2 A (some (A, vA2, iA)))
    (hpass : ∃ m, (probeSt d2.capacity (hash B) m).1 = iA)
    (h3 : RemoveR hash d2 A (some (A, vA2)) d3)
    (hns : ¬ (d2.size - 1 < d2.capacity / 3)) :
    d3.table.get? iA = some Bucket.tombstone ∧
      (∃ j, LookupR hash d3 B (some (B, vB, j))) ∧
      (∃ fuel, getD hash d3 B fuel = some (Except.ok vB)) ∧
      (∀ (t : List (Bucket K V)) (c : Nat) (kk : K) (f i p : Nat),
        t.get? i = some Bucket.tombstone →
        lookupAux t c kk (f + 1) i p =
          lookupAux t c kk f ((5 * i + 1 + p / 32) % c) (p / 32)) := by
  obtain ⟨jB, hB⟩ := insert_finds h2
  obtain ⟨f3, hf3⟩ := h3
  obtain ⟨res, d1x, hlk, hcase, hshrink⟩ := removeF_elim hf3
  have hres : res = some (A, vA2, iA) := LookupR_det ⟨f3, hlk⟩ hA2
  rcases hcase with ⟨hresn, _, _⟩ | ⟨k0, v0, idx, hres0, hout0, hd1x⟩
  · rw [hresn] at hres; cases hres
  · rw [hres0] at hres
    obtain ⟨rfl, rfl, rfl⟩ : k0 = A ∧ v0 = vA2 ∧ idx = iA := by
      have h4 := Option.some_injective _ hres
      exact ⟨congrArg (fun q => q.1) h4, congrArg (fun q => q.2.1) h4,
        congrArg (fun q => q.2.2) h4⟩
    obtain ⟨fA, hfA⟩ := hA2
    rw [lookupD_eq_scan] at hfA
    obtain ⟨_, hA2h, hA2i, hslotA⟩ := scanLookup_found hfA
    rcases hshrink with ⟨_, rfl⟩ | ⟨hcond, _⟩
    · subst hd1x
      refine ⟨get?_set_self hslotA, ?_, ?_, ?_⟩
      · obtain ⟨fB, hfB⟩ := hB
        rw [lookupD_eq_scan] at hfB
        refine ⟨jB, fB, ?_⟩
        rw [lookupD_eq_scan]
        refine scanLookup_pres_set (Or.inr rfl) ?_ hfB
        intro ka va ha ia hget hka
        rw [hslotA] at hget
        have h5 := Option.some_injective _ hget
        cases h5
        exact hAB hka
      · obtain ⟨fB, hfB⟩ := hB
        rw [lookupD_eq_scan] at hfB
        refine getD_of_found (k := B) (i := jB) ⟨fB, ?_⟩
        rw [lookupD_eq_scan]
        refine scanLookup_pres_set (Or.inr rfl) ?_ hfB
        intro ka va ha ia hget hka
        rw [hslotA] at hget
        have h5 := Option.some_injective _ hget
        cases h5
        exact hAB hka
      · intro t c kk f i p hti
        rw [lookupAux, hti]
    · rw [hd1x] at hcond
      exact absurd hcond hns

/-- C2 witness: with identity hashes, insert 7, insert A = 0 (slot 0),
insert B = 8 (whose probe starts at slot 0 and lands at slot 1), remove 0;
the tombstone sits at slot 0 and `get(8)` still returns 6. -/
theorem C2_tombstone_witness :
    ((⟨8, 2, [Bucket.tombstone, Bucket.entry 8 6 8 1, Bucket.empty,
        Bucket.empty, Bucket.empty, Bucket.empty, Bucket.empty,
        Bucket.entry 7 70 7 7]⟩ : Dict Nat Nat)).table.get? 0 =
        some Bucket.tombstone ∧
      (∃ j, LookupR (fun k => k)
        (⟨8, 2, [Bucket.tombstone, Bucket.entry 8 6 8 1, Bucket.empty,
          Bucket.empty, Bucket.empty, Bucket.empty, Bucket.empty,
          Bucket.entry 7 70 7 7]⟩ : Dict Nat Nat) 8 (some (8, 6, j))) ∧
      (∃ fuel, getD (fun k => k)
        (⟨8, 2, [Bucket.tombstone, Bucket.entry 8 6 8 1, Bucket.empty,
          Bucket.empty, Bucket.empty, Bucket.empty, Bucket.empty,
          Bucket.entry 7 70 7 7]⟩ : Dict Nat Nat) 8 fuel =
          some (Except.ok 6)) ∧
      (∀ (t : List (Bucket Nat Nat)) (c : Nat) (kk : Nat) (f i p : Nat),
        t.get? i = some Bucket.tombstone →
        lookupAux t c kk (f + 1) i p =
          lookupAux t c kk f ((5 * i + 1 + p / 32) % c) (p / 32)) := by
  refine C2_tombstone (fun k => k)
    (⟨8, 1, [Bucket.empty, Bucket.empty, Bucket.empty, Bucket.empty,
      Bucket.empty, Bucket.empty, Bucket.empty, Bucket.entry 7 70 7 7]⟩ :
        Dict Nat Nat)
    (⟨8, 2, [Bucket.entry 0 5 0 0, Bucket.empty, Bucket.empty, Bucket.empty,
      Bucket.empty, Bucket.empty, Bucket.empty, Bucket.entry 7 70 7 7]⟩ :
        Dict Nat Nat)
    (⟨8, 3, [Bucket.entry 0 5 0 0, Bucket.entry 8 6 8 1, Bucket.empty,
      Bucket.empty, Bucket.empty, Bucket.empty, Bucket.empty,
      Bucket.entry 7 70 7 7]⟩ : Dict Nat Nat)
    _ 0 8 5 6 5 0 (by decide) ⟨64, by decide⟩ ⟨64, by decide⟩
    ⟨2, by decide⟩ ⟨0, by decide⟩ ⟨64, by decide⟩ (by decide)

/-- C3 (amended): `insert` increments the size counter first and doubles
capacity with a full rehash exactly when `2*(capacity/3) < size + 1`
(not when the incremented size exceeds `floor(2*capacity/3)`, see
`C3_growth_cex`); the rehash discards all tombstones, and every key
retrievable before the insert is still retrievable afterwards. -/
theorem C3_growth (hash : K → Nat) (d d2 : Dict K V) (k : K) (v : V)
    (hok : HashesOK hash d.table) (hIns : InsertR hash d k v d2) :
    d2.size = d.size + 1 ∧
      d2.capacity = (if 2 * (d.capacity / 3) < d.size + 1 then 2 * d.capacity
        else d.capacity) ∧
      (2 * (d.capacity / 3) < d.size + 1 → NoTombs d2.table) ∧
      (∀ k2 v2 i2, LookupR hash d k2 (some (k2, v2, i2)) →
        ∃ v3 i3, LookupR hash d2 k2 (some (k2, v3, i3))) := by
  obtain ⟨f, hf⟩ := hIns
  obtain ⟨dmid, t, hmid, hfi, hd2⟩ := insertF_elim hf
  rw [forceInsertD_eq_scan] at hfi
  have hsize : d2.size = d.size + 1 := by
    rw [hd2]
    rcases hmid with ⟨_, rfl⟩ | ⟨_, hrs⟩
    · rfl
    · exact (resizeF_elim hrs).2.2
  have hcap : d2.capacity = (if 2 * (d.capacity / 3) < d.size + 1
      then 2 * d.capacity else d.capacity) := by
    rw [hd2]
    rcases hmid with ⟨hc, rfl⟩ | ⟨hc, hrs⟩
    · rw [if_neg hc]
    · rw [if_pos hc]
      exact (resizeF_elim hrs).2.1
  refine ⟨hsize, hcap, ?_, ?_⟩
  · intro hc
    rcases hmid with ⟨hc2, _⟩ | ⟨_, hrs⟩
    · exact absurd hc hc2
    · obtain ⟨hri, _, _⟩ := resizeF_elim hrs
      have hntmid : NoTombs dmid.table := reinsertAll_noTombs hri noTombs_replicate
      rw [hd2]
      exact noTombs_place hntmid hfi
  · intro k2 v2 i2 hp
    have hmidlook : ∃ v3 i3 f3, scanLookup dmid.table dmid.capacity k2
        (hash k2) f3 0 = some (some (k2, v3, i3)) := by
      rcases hmid with ⟨_, rfl⟩ | ⟨_, hrs⟩
      · obtain ⟨f2, hf2⟩ := hp
        rw [lookupD_eq_scan] at hf2
        exact ⟨v2, i2, f2, hf2⟩
      · obtain ⟨f2, hf2⟩ := hp
        rw [lookupD_eq_scan] at hf2
        obtain ⟨_, hh2, hi2, hslot⟩ := scanLookup_found hf2
        obtain ⟨v3, i3, hl3⟩ := resize_retrievable (d := ⟨d.capacity,
          d.size + 1, d.table⟩) hok hrs ⟨i2, v2, hh2, hi2, hslot⟩
        obtain ⟨f3, hf3⟩ := hl3
        rw [lookupD_eq_scan] at hf3
        exact ⟨v3, i3, f3, hf3⟩
    obtain ⟨v3, i3, f3, hf3⟩ := hmidlook
    by_cases hk2 : k2 = k
    · subst hk2
      obtain ⟨j, hj⟩ := scanLookup_after_place hfi
      refine ⟨v, j, f, ?_⟩
      rw [lookupD_eq_scan, hd2]
      exact hj
    · refine ⟨v3, i3, f3, ?_⟩
      rw [lookupD_eq_scan, hd2]
      exact scanLookup_pres_place (fun he => hk2 he.symm) hfi hf3

/-- C3 witness: from a capacity-8 table holding keys 0..3, inserting key 4
doubles the capacity to 16 (since `2*(8/3) = 4 < 5`) with no tombstone
left, and keys 0..3 stay retrievable. -/
theorem C3_growth_witness :
    ((⟨16, 5, [Bucket.entry 0 10 0 0, Bucket.entry 1 11 1 1,
      Bucket.entry 2 12 2 2, Bucket.entry 3 13 3 3, Bucket.entry 4 14 4 4,
      Bucket.empty, Bucket.empty, Bucket.empty, Bucket.empty, Bucket.empty,
      Bucket.empty, Bucket.empty, Bucket.empty, Bucket.empty, Bucket.empty,
      Bucket.empty]⟩ : Dict Nat Nat).size = 4 + 1) ∧
    ((16 : Nat) = if 2 * (8 / 3) < 4 + 1 then 2 * 8 else 8) ∧
    (∃ v3 i3, LookupR (fun k => k)
      (⟨16, 5, [Bucket.entry 0 10 0 0, Bucket.entry 1 11 1 1,
        Bucket.entry 2 12 2 2, Bucket.entry 3 13 3 3, Bucket.entry 4 14 4 4,
        Bucket.empty, Bucket.empty, Bucket.empty, Bucket.empty, Bucket.empty,
        Bucket.empty, Bucket.empty, Bucket.empty, Bucket.empty, Bucket.empty,
        Bucket.empty]⟩ : Dict Nat Nat) 2 (some (2, v3, i3))) := by
  have h := C3_growth (fun k => k)
    (⟨8, 4, [Bucket.entry 0 10 0 0, Bucket.entry 1 11 1 1,
      Bucket.entry 2 12 2 2, Bucket.entry 3 13 3 3, Bucket.empty,
      Bucket.empty, Bucket.empty, Bucket.empty]⟩ : Dict Nat Nat)
    (⟨16, 5, [Bucket.entry 0 10 0 0, Bucket.entry 1 11 1 1,
      Bucket.entry 2 12 2 2, Bucket.entry 3 13 3 3, Bucket.entry 4 14 4 4,
      Bucket.empty, Bucket.empty, Bucket.empty, Bucket.empty, Bucket.empty,
      Bucket.empty, Bucket.empty, Bucket.empty, Bucket.empty, Bucket.empty,
      Bucket.empty]⟩ : Dict Nat Nat)
    4 14 (hashesOK_of_B (by decide)) ⟨64, by decide⟩
  exact ⟨h.1, h.2.1.symm, h.2.2.2 2 12 2 ⟨8, by decide⟩⟩

/-- C3 counterexample: the claim as stated is false — with capacity 8 and
four entries, inserting a fifth key doubles the capacity although the
incremented size 5 does not exceed `floor(2*8/3) = 5`; the code uses the
threshold `2*(capacity/3) = 4`. -/
theorem C3_growth_cex :
    insertF (fun k => k)
      (⟨8, 4, [Bucket.entry 0 10 0 0, Bucket.entry 1 11 1 1,
        Bucket.entry 2 12 2 2, Bucket.entry 3 13 3 3, Bucket.empty,
        Bucket.empty, Bucket.empty, Bucket.empty]⟩ : Dict Nat Nat) 4 14 64 =
      some ⟨16, 5, [Bucket.entry 0 10 0 0, Bucket.entry 1 11 1 1,
        Bucket.entry 2 12 2 2, Bucket.entry 3 13 3 3, Bucket.entry 4 14 4 4,
        Bucket.empty, Bucket.empty, Bucket.empty, Bucket.empty, Bucket.empty,
        Bucket.empty, Bucket.empty, Bucket.empty, Bucket.empty, Bucket.empty,
        Bucket.empty]⟩ ∧
      ¬ (4 + 1 > 2 * 8 / 3) ∧ (16 : Nat) ≠ 8 := by
  exact ⟨by decide, by decide, by decide⟩

/-- C4: after every `remove` call, hit or miss, the capacity is halved with
a full rehash (discarding tombstones) exactly when the post-operation size
is below `capacity/3`, and every other key retrievable before the removal
is still retrievable afterwards. -/
theorem C4_shrink (hash : K → Nat) (d : Dict K V) (k : K)
    (out : Option (K × V)) (d2 : Dict K V) (hok : HashesOK hash d.table)
    (hR : RemoveR hash d k out d2) :
    d2.size = (if out.isSome then d.size - 1 else d.size) ∧
      d2.capacity =
        (if (if out.isSome then d.size - 1 else d.size) <
            d.capacity / 3 then d.capacity / 2 else d.capacity) ∧
      ((if out.isSome then d.size - 1 else d.size) <
          d.capacity / 3 → NoTombs d2.table) ∧
      (∀ k2 v2 i2, k2 ≠ k → LookupR hash d k2 (some (k2, v2, i2)) →
        ∃ v3 i3, LookupR hash d2 k2 (some (k2, v3, i3))) := by
  obtain ⟨f, hf⟩ := hR
  obtain ⟨res, d1, hlk, hcase, hshrink⟩ := removeF_elim hf
  have hd1size : d1.size = (if out.isSome then d.size - 1 else d.size) := by
    rcases hcase with ⟨_, rfl, rfl⟩ | ⟨k0, v0, idx, _, rfl, rfl⟩ <;> rfl
  have hd1cap : d1.capacity = d.capacity := by
    rcases hcase with ⟨_, _, rfl⟩ | ⟨k0, v0, idx, _, _, rfl⟩ <;> rfl
  have hd1ok : HashesOK hash d1.table := by
    rcases hcase with ⟨_, _, rfl⟩ | ⟨k0, v0, idx, _, _, rfl⟩
    · exact hok
    · exact hashesOK_set (by intro _ _ _ _ hb; cases hb) hok
  refine ⟨?_, ?_, ?_, ?_⟩
  · rcases hshrink with ⟨_, rfl⟩ | ⟨_, hrs⟩
    · exact hd1size
    · rw [(resizeF_elim hrs).2.2, hd1size]
  · rcases hshrink with ⟨hc, rfl⟩ | ⟨hc, hrs⟩
    · rw [hd1size, hd1cap] at hc
      rw [if_neg hc, hd1cap]
    · rw [hd1size, hd1cap] at hc
      rw [if_pos hc, (resizeF_elim hrs).2.1, hd1cap]
  · intro hc
    rcases hshrink with ⟨hc2, rfl⟩ | ⟨_, hrs⟩
    · rw [hd1size, hd1cap] at hc2
      exact absurd hc hc2
    · exact reinsertAll_noTombs (resizeF_elim hrs).1 noTombs_replicate
  · intro k2 v2 i2 hne hp
    obtain ⟨f2, hf2⟩ := hp
    rw [lookupD_eq_scan] at hf2
    have hd1look : ∃ f3, scanLookup d1.table d1.capacity k2 (hash k2) f3 0 =
        some (some (k2, v2, i2)) := by
      rcases hcase with ⟨_, _, rfl⟩ | ⟨k0, v0, idx, hres0, _, rfl⟩
      · exact ⟨f2, hf2⟩
      · rw [hres0] at hlk
        rw [lookupD_eq_scan] at hlk
        obtain ⟨hk0, hh0, hi0, hslot0⟩ := scanLookup_found hlk
        refine ⟨f2, ?_⟩
        have : scanLookup (d.table.set idx Bucket.tombstone) d.capacity k2
            (hash k2) f2 0 = some (some (k2, v2, i2)) := by
          refine scanLookup_pres_set (Or.inr rfl) ?_ hf2
          intro ka va ha ia hget hka
          rw [hslot0] at hget
          have h5 := Option.some_injective _ hget
          cases h5
          rw [hk0] at hka
          exact hne hka.symm
        exact this
    obtain ⟨f3, hf3⟩ := hd1look
    rcases hshrink with ⟨_, rfl⟩ | ⟨_, hrs⟩
    · refine ⟨v2, i2, f3, ?_⟩
      rw [lookupD_eq_scan]
      exact hf3
    · obtain ⟨_, hh3, hi3, hslot3⟩ := scanLookup_found hf3
      exact resize_retrievable hd1ok hrs ⟨i2, v2, hh3, hi3, hslot3⟩

/-- C4 witness: removing key 1 from a capacity-8 table with three entries
returns the pair, does not shrink (2 is not below 8/3 = 2), and key 2
stays retrievable. -/
theorem C4_shrink_witness :
    ((⟨8, 2, [Bucket.empty, Bucket.tombstone, Bucket.entry 2 8 2 2,
      Bucket.entry 3 9 3 3, Bucket.empty, Bucket.empty, Bucket.empty,
      Bucket.empty]⟩ : Dict Nat Nat).size =
        (if (some ((1 : Nat), (7 : Nat)) : Option (Nat × Nat)).isSome
          then 3 - 1 else 3)) ∧
    (∃ v3 i3, LookupR (fun k => k)
      (⟨8, 2, [Bucket.empty, Bucket.tombstone, Bucket.entry 2 8 2 2,
        Bucket.entry 3 9 3 3, Bucket.empty, Bucket.empty, Bucket.empty,
        Bucket.empty]⟩ : Dict Nat Nat) 2 (some (2, v3, i3))) := by
  have h := C4_shrink (fun k => k)
    (⟨8, 3, [Bucket.empty, Bucket.entry 1 7 1 1, Bucket.entry 2 8 2 2,
      Bucket.entry 3 9 3 3, Bucket.empty, Bucket.empty, Bucket.empty,
      Bucket.empty]⟩ : Dict Nat Nat) 1 (some (1, 7))
    (⟨8, 2, [Bucket.empty, Bucket.tombstone, Bucket.entry 2 8 2 2,
      Bucket.entry 3 9 3 3, Bucket.empty, Bucket.empty, Bucket.empty,
      Bucket.empty]⟩ : Dict Nat Nat)
    (hashesOK_of_B (by decide)) ⟨64, by decide⟩
  exact ⟨h.1, h.2.2.2 2 8 2 (by decide) ⟨8, by decide⟩⟩

/-- C5 (amended): both the lookup loop and the raw-placement loop, started
at `(h % capacity, h)`, inspect exactly the slots of the probe-state
sequence `probeSt`, which depends on `(h, capacity)` alone; each step of
that sequence first shifts `perturb` right by 5 bits and then sets
`index = (5*index + 1 + perturb) % capacity`.  (The claim as stated, with
the index updated before the shift, is refuted by `C5_probe_cex`.) -/
theorem C5_probe_shared (table : List (Bucket K V)) (cap : Nat) (key : K)
    (value : V) (h fuel : Nat) :
    lookupAux table cap key fuel (h % cap) h =
        scanLookup table cap key h fuel 0 ∧
      forceInsertAux table cap key value h fuel (h % cap) h =
        scanPlace table cap key value h fuel 0 := by
  constructor
  · have := lookupAux_eq_scan table cap key h fuel 0
    simpa using this
  · have := forceInsertAux_eq_scan table cap key value h fuel 0
    simpa using this

/-- C5 counterexample: the claim orders each probe step as index update
first, shift second (`specProbeSt`, transcribed from the spec).  For hash
32 and capacity 8 the code visits slot 2 at the first step
(`perturb` is shifted to 1 before being added), not slot 1 as the claimed
sequence demands: a lookup of key 32 finds it at slot 2 while the claimed
sequence would stop at the empty slot 1. -/
theorem C5_probe_cex :
    (probeSt 8 32 1).1 = 2 ∧ (specProbeSt 8 32 1).1 = 1 ∧ (2 : Nat) ≠ 1 ∧
      lookupAux [Bucket.entry 99 0 99 0, Bucket.empty, Bucket.entry 32 5 32 2,
        Bucket.empty, Bucket.empty, Bucket.empty, Bucket.empty,
        (Bucket.empty : Bucket Nat Nat)] 8 32 10 (32 % 8) 32 =
        some (some (32, 5, 2)) ∧
      ([Bucket.entry 99 0 99 0, Bucket.empty, Bucket.entry 32 5 32 2,
        Bucket.empty, Bucket.empty, Bucket.empty, Bucket.empty,
        (Bucket.empty : Bucket Nat Nat)].get? 1 = some Bucket.empty) := by
  exact ⟨by decide, by decide, by decide, by decide, by decide⟩

/-- C6 (amended): over any power-of-two capacity — which covers the
default capacity 8 and every capacity obtained from it by the doubling and
halving of the resize policy — the probe sequence from every starting hash
eventually visits every slot; hence a lookup terminates whenever the table
has at least one empty slot.  (For arbitrary caller-specified capacities
the claim is false: see `C6_probe_exhaustive_cex` for capacity 3.) -/
theorem C6_probe_exhaustive :
    (∀ e h s : Nat, s < 2 ^ e → ∃ n, (probeSt (2 ^ e) h n).1 = s) ∧
    (∀ (table : List (Bucket K V)) (key : K) (h e : Nat),
      table.length = 2 ^ e → (∃ j, table.get? j = some Bucket.empty) →
      ∃ fuel r, lookupAux table (2 ^ e) key fuel (h % 2 ^ e) h = some r) := by
  constructor
  · exact fun e h s hs => probe_covers_pow2 e h s hs
  · intro table key h e hlen hemp
    obtain ⟨fuel, r, hr⟩ := lookup_term key h hlen hemp
    refine ⟨fuel, r, ?_⟩
    have heq := lookupAux_eq_scan table (2 ^ e) key h fuel 0
    simpa using heq.trans hr

/-- C6 witness: at capacity `2^3 = 8` the probe sequence from hash 0
reaches slot 5, and a lookup in the all-empty default table terminates. -/
theorem C6_probe_exhaustive_witness :
    (∃ n, (probeSt (2 ^ 3) 0 n).1 = 5) ∧
      ∃ fuel r, lookupAux (List.replicate 8 (Bucket.empty : Bucket Nat Nat))
        (2 ^ 3) 0 fuel (0 % 2 ^ 3) 0 = some r := by
  constructor
  · exact (C6_probe_exhaustive (K := Nat) (V := Nat)).1 3 0 5 (by decide)
  · exact (C6_probe_exhaustive (K := Nat) (V := Nat)).2
      (List.replicate 8 Bucket.empty) 0 0 3 (by decide) ⟨0, by decide⟩

/-- C6 counterexample: capacity 3 is reachable through the caller-specified
constructor, yet the probe sequence for hash 0 alternates between slots 0
and 1 forever and never visits slot 2, so the claim as stated is false. -/
theorem C6_probe_exhaustive_cex :
    (withCapacity 3 : Option (Dict Nat Nat)) =
        some ⟨3, 0, List.replicate 3 Bucket.empty⟩ ∧
      ¬ (∀ s, s < 3 → ∃ n, (probeSt 3 0 n).1 = s) := by
  refine ⟨by decide, ?_⟩
  intro hall
  obtain ⟨n, hn⟩ := hall 2 (by decide)
  rw [probe3_period n] at hn
  by_cases hp : n % 2 = 0 <;> simp [hp] at hn

/-- C7 (amended): (a) after a successful `remove(k)` on a table whose
cached hashes are truthful and in which `k` occupied at most one slot,
`contains(k)` is false and `get(k)` reports the "key not found" failure —
provided the resulting capacity is a power of two and an empty slot
remains, which guarantee the lookup terminates; (b) removing an absent key
returns the empty option and never fails, and leaves the size unchanged —
but it is not a complete no-op: when `size < capacity/3` it still halves
the capacity (see `C7_deletion_cex`).  The unrestricted claim (a) is false
for duplicated keys: see `C7_deletion_cex`. -/
theorem C7_deletion (hash : K → Nat) :
    (∀ (d : Dict K V) (k : K) (p : K × V) (d2 : Dict K V) (e : Nat),
      d.table.length = d.capacity → HashesOK hash d.table →
      KeyUnique k d.table → RemoveR hash d k (some p) d2 →
      d2.capacity = 2 ^ e →
      (∃ j, d2.table.get? j = some Bucket.empty) →
      LookupR hash d2 k none ∧
        (∃ fuel, containsD hash d2 k fuel = some false) ∧
        (∃ fuel, getD hash d2 k fuel =
          some (Except.error "Key does not exist"))) ∧
    (∀ (d : Dict K V) (k : K) (out : Option (K × V)) (d2 : Dict K V),
      LookupR hash d k none → RemoveR hash d k out d2 →
      out = none ∧ d2.size = d.size ∧
        (¬ d.size < d.capacity / 3 → d2 = d) ∧
        (d.size < d.capacity / 3 → d2.capacity = d.capacity / 2)) := by
  constructor
  · intro d k p d2 e hlen hok huniq hR hcap2 hemp
    obtain ⟨f, hf⟩ := hR
    obtain ⟨res, d1, hlk, hcase, hshrink⟩ := removeF_elim hf
    rcases hcase with ⟨_, hout, _⟩ | ⟨k0, v0, idx, hres0, hout0, hd1⟩
    · cases hout
    · rw [hres0] at hlk
      rw [lookupD_eq_scan] at hlk
      obtain ⟨hk0, hh0, hi0, hslot0⟩ := scanLookup_found hlk
      subst hk0
      have habs1 : KeyAbsent k0 d1.table := by
        rw [hd1]
        intro x ka va ha ia hget hka
        rcases get?_set_elim hget with ⟨_, hb⟩ | ⟨hxne, hold⟩
        · cases hb
        · exact hxne (huniq x idx ka va ha ia k0 v0 hh0 hi0 hold hka hslot0 rfl)
      have habs2 : KeyAbsent k0 d2.table := by
        rcases hshrink with ⟨_, rfl⟩ | ⟨_, hrs⟩
        · exact habs1
        · exact reinsertAll_absent (resizeF_elim hrs).1 habs1 keyAbsent_replicate
      have hlen2 : d2.table.length = 2 ^ e := by
        rcases hshrink with ⟨_, rfl⟩ | ⟨_, hrs⟩
        · rw [← hcap2]
          rw [hd1]
          simpa using hlen
        · rw [reinsertAll_length (resizeF_elim hrs).1, List.length_replicate,
            ← (resizeF_elim hrs).2.1, hcap2]
      have hterm := lookup_term k0 (hash k0) hlen2 hemp
      obtain ⟨fuel, r, hr⟩ := hterm
      have hrnone : r = none := scanLookup_absent habs2 hr
      subst hrnone
      have hlook : LookupR hash d2 k0 none := by
        refine ⟨fuel, ?_⟩
        rw [lookupD_eq_scan, hcap2]
        exact hr
      exact ⟨hlook, containsD_of_missing hlook, getD_of_missing hlook⟩
  · intro d k out d2 hmiss hR
    obtain ⟨f, hf⟩ := hR
    obtain ⟨res, d1, hlk, hcase, hshrink⟩ := removeF_elim hf
    have hres : res = none := LookupR_det ⟨f, hlk⟩ hmiss
    rcases hcase with ⟨_, hout, hd1⟩ | ⟨k0, v0, idx, hres0, _, _⟩
    · subst hd1
      refine ⟨hout, ?_, ?_, ?_⟩
      · rcases hshrink with ⟨_, rfl⟩ | ⟨_, hrs⟩
        · rfl
        · exact (resizeF_elim hrs).2.2
      · intro hno
        rcases hshrink with ⟨_, rfl⟩ | ⟨hc, _⟩
        · rfl
        · exact absurd hc hno
      · intro hyes
        rcases hshrink with ⟨hc, rfl⟩ | ⟨_, hrs⟩
        · exact absurd hyes hc
        · exact (resizeF_elim hrs).2.1
    · rw [hres0] at hres; cases hres

/-- C7 witness: (a) removing key 2 from a three-entry capacity-8 table
leaves `contains(2) = false` and `get(2)` failing; (b) removing the absent
key 5 from the default table returns the empty option with size unchanged
— the shrink check halves the capacity to 4. -/
theorem C7_deletion_witness :
    (LookupR (fun k => k)
      (⟨8, 2, [Bucket.empty, Bucket.entry 1 7 1 1, Bucket.tombstone,
        Bucket.entry 3 9 3 3, Bucket.empty, Bucket.empty, Bucket.empty,
        Bucket.empty]⟩ : Dict Nat Nat) 2 none ∧
      (∃ fuel, containsD (fun k => k)
        (⟨8, 2, [Bucket.empty, Bucket.entry 1 7 1 1, Bucket.tombstone,
          Bucket.entry 3 9 3 3, Bucket.empty, Bucket.empty, Bucket.empty,
          Bucket.empty]⟩ : Dict Nat Nat) 2 fuel = some false) ∧
      (∃ fuel, getD (fun k => k)
        (⟨8, 2, [Bucket.empty, Bucket.entry 1 7 1 1, Bucket.tombstone,
          Bucket.entry 3 9 3 3, Bucket.empty, Bucket.empty, Bucket.empty,
          Bucket.empty]⟩ : Dict Nat Nat) 2 fuel =
          some (Except.error "Key does not exist"))) ∧
    ((none : Option (Nat × Nat)) = none ∧
      (⟨4, 0, List.replicate 4 Bucket.empty⟩ : Dict Nat Nat).size =
        (Dict.new : Dict Nat Nat).size ∧
      (¬ (Dict.new : Dict Nat Nat).size < (Dict.new : Dict Nat Nat).capacity / 3 →
        (⟨4, 0, List.replicate 4 Bucket.empty⟩ : Dict Nat Nat) = Dict.new) ∧
      ((Dict.new : Dict Nat Nat).size < (Dict.new : Dict Nat Nat).capacity / 3 →
        (⟨4, 0, List.replicate 4 Bucket.empty⟩ : Dict Nat Nat).capacity =
          (Dict.new : Dict Nat Nat).capacity / 2)) := by
  constructor
  · exact (C7_deletion (fun k => k)).1
      (⟨8, 3, [Bucket.empty, Bucket.entry 1 7 1 1, Bucket.entry 2 8 2 2,
        Bucket.entry 3 9 3 3, Bucket.empty, Bucket.empty, Bucket.empty,
        Bucket.empty]⟩ : Dict Nat Nat) 2 (2, 8) _ 3 (by decide)
      (hashesOK_of_B (by decide)) (keyUnique_of_countKey (by decide))
      ⟨64, by decide⟩ (by decide) ⟨0, by decide⟩
  · exact (C7_deletion (fun k => k)).2 Dict.new 5 none
      (⟨4, 0, List.replicate 4 Bucket.empty⟩ : Dict Nat Nat)
      ⟨1, by decide⟩ ⟨64, by decide⟩

/-- C7 counterexample: the claim as stated is false on both counts.
First, reachable tables can hold a key twice (insert 0, 8, 16; remove 0;
insert 8 again claims the tombstone): after a then successful `remove(8)`,
`contains(8)` is still true and `get(8)` resurrects the stale value 1.
Second, removing an absent key from the fresh default table is not a
no-op: the shrink check fires and halves the capacity from 8 to 4. -/
theorem C7_deletion_cex :
    ((((((insertF (fun k => k) (Dict.new : Dict Nat Nat) 0 0 64).bind
      fun d => insertF (fun k => k) d 8 1 64).bind
      fun d => insertF (fun k => k) d 16 2 64).bind
      fun d => (removeF (fun k => k) d 0 64).map Prod.snd).bind
      fun d => insertF (fun k => k) d 8 10 64).bind
      fun d => removeF (fun k => k) d 8 64).bind
      (fun p => (containsD (fun k => k) p.2 8 64).map
        fun b => (p.1, b)) = some (some (8, 10), true) ∧
    removeF (fun k => k) (Dict.new : Dict Nat Nat) 5 64 =
      some (none, ⟨4, 0, List.replicate 4 Bucket.empty⟩) ∧
    (4 : Nat) ≠ 8 := by
  exact ⟨by decide, by decide, by decide⟩

/-- C8 (amended): in every table reachable by insertions alone (no
removals), at most one occupied slot holds any given key, and inserting
into such a table leaves exactly one occupied slot for the inserted key,
holding the latest value.  (On tables reached using removals the claim is
false: `force_insert` claims the first tombstone on the probe path even
when the key lives further along, creating a duplicate — see
`C8_key_uniqueness_cex`.) -/
theorem C8_key_uniqueness (hash : K → Nat) {d : Dict K V}
    (hreach : InsReach hash d) :
    (∀ key, KeyUnique key d.table) ∧
      (∀ (k : K) (v : V) (d2 : Dict K V), InsertR hash d k v d2 →
        ∃ x h0 i0, d2.table.get? x = some (Bucket.entry k v h0 i0) ∧
          ∀ y ky vy hy iy, d2.table.get? y = some (Bucket.entry ky vy hy iy) →
            ky = k → y = x) := by
  have hins := insOK_reach hreach
  refine ⟨hins.2.2.2.1, ?_⟩
  intro k v d2 hI
  have hins2 := insOK_insert hins hI
  obtain ⟨i, hlook⟩ := insert_finds hI
  obtain ⟨f2, hf2⟩ := hlook
  rw [lookupD_eq_scan] at hf2
  obtain ⟨_, h0, i0, hslot⟩ := scanLookup_found hf2
  refine ⟨i, h0, i0, hslot, ?_⟩
  intro y ky vy hy iy hgy hky
  exact hins2.2.2.2.1 k y i ky vy hy iy k v h0 i0 hgy hky hslot rfl

/-- C8 witness: the table obtained by inserting key 1 into the default
table is insert-only reachable; every key occupies at most one slot, and
re-inserting leaves exactly one entry with the latest value. -/
theorem C8_key_uniqueness_witness :
    (∀ key : Nat, KeyUnique key
      ((⟨8, 1, [Bucket.empty, Bucket.entry 1 7 1 1, Bucket.empty,
        Bucket.empty, Bucket.empty, Bucket.empty, Bucket.empty,
        Bucket.empty]⟩ : Dict Nat Nat)).table) ∧
      (∀ (k v : Nat) (d2 : Dict Nat Nat), InsertR (fun k => k)
          (⟨8, 1, [Bucket.empty, Bucket.entry 1 7 1 1, Bucket.empty,
            Bucket.empty, Bucket.empty, Bucket.empty, Bucket.empty,
            Bucket.empty]⟩ : Dict Nat Nat) k v d2 →
        ∃ x h0 i0, d2.table.get? x = some (Bucket.entry k v h0 i0) ∧
          ∀ y ky vy hy iy, d2.table.get? y = some (Bucket.entry ky vy hy iy) →
            ky = k → y = x) :=
  C8_key_uniqueness (fun k => k)
    (@InsReach.insert Nat Nat _ (fun k => k) Dict.new
      (⟨8, 1, [Bucket.empty, Bucket.entry 1 7 1 1, Bucket.empty,
        Bucket.empty, Bucket.empty, Bucket.empty, Bucket.empty,
        Bucket.empty]⟩ : Dict Nat Nat) 1 7 InsReach.new ⟨64, by decide⟩)

/-- C8 counterexample: the claim as stated is false.  The reachable run
insert 0, insert 8, insert 16, remove 0, insert 8 leaves the table with
key 8 occupying both slot 0 and slot 1. -/
theorem C8_key_uniqueness_cex :
    ((((insertF (fun k => k) (Dict.new : Dict Nat Nat) 0 0 64).bind
      fun d => insertF (fun k => k) d 8 1 64).bind
      fun d => insertF (fun k => k) d 16 2 64).bind
      fun d => (removeF (fun k => k) d 0 64).map Prod.snd).bind
      (fun d => insertF (fun k => k) d 8 10 64) =
      some ⟨8, 3, [Bucket.entry 8 10 8 0, Bucket.entry 8 1 8 1, Bucket.empty,
        Bucket.empty, Bucket.empty, Bucket.empty, Bucket.entry 16 2 16 6,
        Bucket.empty]⟩ ∧
    countKey 8 [Bucket.entry 8 10 8 0, Bucket.entry 8 1 8 1, Bucket.empty,
      Bucket.empty, Bucket.empty, Bucket.empty, Bucket.entry 16 2 16 6,
      (Bucket.empty : Bucket Nat Nat)] = 2 ∧
    ([Bucket.entry 8 10 8 0, Bucket.entry 8 1 8 1, Bucket.empty,
      Bucket.empty, Bucket.empty, Bucket.empty, Bucket.entry 16 2 16 6,
      (Bucket.empty : Bucket Nat Nat)].get? 0 =
        some (Bucket.entry 8 10 8 0)) ∧
    ([Bucket.entry 8 10 8 0, Bucket.entry 8 1 8 1, Bucket.empty,
      Bucket.empty, Bucket.empty, Bucket.empty, Bucket.entry 16 2 16 6,
      (Bucket.empty : Bucket Nat Nat)].get? 1 =
        some (Bucket.entry 8 1 8 1)) ∧
    (0 : Nat) ≠ 1 := by
  exact ⟨by decide, by decide, by decide, by decide, by decide⟩

/-- C9 (amended): `from_tuples` fails on an empty input, and otherwise
allocates an initial capacity of `len*2/3 + 1` — about two thirds of the
input length, not roughly 1.5 times it — and inserts the pairs in order;
the initial load factor therefore does not stay under the 2/3 growth
threshold (growth can fire during construction, see `C9_from_tuples_cex`). -/
theorem C9_from_tuples (hash : K → Nat) :
    (∀ fuel, fromTuplesF hash ([] : List (K × V)) fuel = none) ∧
    (∀ (l : List (K × V)) (fuel : Nat) (d : Dict K V),
      fromTuplesF hash l fuel = some d →
      l ≠ [] ∧
        insertList hash fuel l
          ⟨l.length * 2 / 3 + 1, 0,
            List.replicate (l.length * 2 / 3 + 1) Bucket.empty⟩ = some d) := by
  constructor
  · intro fuel; rfl
  · intro l fuel d h
    rw [fromTuplesF] at h
    by_cases he : l.isEmpty
    · rw [if_pos he] at h; cases h
    · rw [if_neg he] at h
      have hne : l ≠ [] := by
        intro h0
        subst h0
        exact he rfl
      refine ⟨hne, ?_⟩
      rw [withCapacity] at h
      have hnz : ¬ (l.length * 2 / 3 + 1 = 0) := by omega
      rw [if_neg hnz] at h
      exact h

/-- C9 witness: `from_tuples [(1, 2)]` allocates initial capacity
`1*2/3 + 1 = 1` and inserts the pair (growing to capacity 2 on the way);
the empty input fails. -/
theorem C9_from_tuples_witness :
    ((([((1 : Nat), (2 : Nat))] : List (Nat × Nat)) ≠ []) ∧
      insertList (fun k => k) 64 ([(1, 2)] : List (Nat × Nat))
        ⟨[((1 : Nat), (2 : Nat))].length * 2 / 3 + 1, 0,
          List.replicate ([((1 : Nat), (2 : Nat))].length * 2 / 3 + 1)
            Bucket.empty⟩ =
        some ⟨2, 1, [Bucket.empty, Bucket.entry 1 2 1 1]⟩) ∧
      fromTuplesF (fun k => k) ([] : List (Nat × Nat)) 0 = none := by
  refine ⟨?_, (C9_from_tuples (fun k => k)).1 0⟩
  exact (C9_from_tuples (fun k => k)).2 [(1, 2)] 64
    ⟨2, 1, [Bucket.empty, Bucket.entry 1 2 1 1]⟩ (by decide)

/-- C9 counterexample: the claim as stated is false.  For six pairs the
initial capacity is `6*2/3 + 1 = 5` — well below the claimed roughly-1.5×
(which would be 9) — and the load exceeds the growth threshold during
construction: the finished table has capacity 10, not 5. -/
theorem C9_from_tuples_cex :
    fromTuplesF (fun k => k)
      ([(0, 0), (1, 1), (2, 2), (3, 3), (4, 4), (5, 5)] : List (Nat × Nat))
      64 =
      some ⟨10, 6, [Bucket.entry 0 0 0 0, Bucket.entry 1 1 1 1,
        Bucket.entry 2 2 2 2, Bucket.entry 3 3 3 3, Bucket.entry 4 4 4 4,
        Bucket.entry 5 5 5 5, Bucket.empty, Bucket.empty, Bucket.empty,
        Bucket.empty]⟩ ∧
    ((6 * 2) / 3 + 1 : Nat) = 5 ∧ (5 : Nat) < 9 ∧ (10 : Nat) ≠ 5 := by
  exact ⟨by decide, by decide, by decide, by decide⟩

/-- C10: every dictionary reachable through the public constructors and
operations has capacity at least 1 — `new` starts at 8, the sized
constructor rejects 0, growth doubles, and the shrink branch fires only
when `size < capacity/3`, which forces `capacity ≥ 3` so halving never
reaches 0; hence `hash % capacity` never divides by zero. -/
theorem C10_capacity_pos {hash : K → Nat} {d : Dict K V}
    (h : Reachable hash d) : 1 ≤ d.capacity := by
  induction h with
  | new => norm_num [Dict.new]
  | withCap hw =>
    rename_i n d2
    rw [withCapacity] at hw
    by_cases hn : n = 0
    · rw [if_pos hn] at hw; cases hw
    · rw [if_neg hn] at hw
      have h2 := (Option.some_injective _ hw).symm
      subst h2
      simpa using Nat.pos_of_ne_zero hn
  | insert hd hI ih =>
    obtain ⟨f, hf⟩ := hI
    obtain ⟨dmid, t, hmid, _, hd2⟩ := insertF_elim hf
    rw [hd2]
    rcases hmid with ⟨_, rfl⟩ | ⟨_, hrs⟩
    · exact ih
    · have := (resizeF_elim hrs).2.1
      simp only [this]
      omega
  | remove hd hR ih =>
    rename_i dpre dpost k0 out0
    obtain ⟨f, hf⟩ := hR
    obtain ⟨res, d1, _, hcase, hshrink⟩ := removeF_elim hf
    have hd1cap : d1.capacity = dpre.capacity := by
      rcases hcase with ⟨_, _, rfl⟩ | ⟨ka, va, idxa, _, _, rfl⟩ <;> rfl
    rcases hshrink with ⟨_, rfl⟩ | ⟨hc, hrs⟩
    · rw [hd1cap]
      exact ih
    · have hcap2 := (resizeF_elim hrs).2.1
      rw [hcap2]
      omega

/-- C10 witness: the freshly constructed default dictionary is reachable
and its capacity 8 is at least 1. -/
theorem C10_capacity_pos_witness :
    1 ≤ (Dict.new : Dict Nat Nat).capacity :=
  @C10_capacity_pos Nat Nat _ (fun k => k) Dict.new Reachable.new

end DictRS
